import Mathlib

/-!
# RReader rendering core: a shallow embedding in Lean 4

This development embeds the scheduling/layout/visibility/caching core of the
RReader document viewer (a Rust program) and proves properties of it.

Conventions of the embedding:
* `f32` values are modelled as exact rationals (`ℚ`); the source's floating
  point literals become the corresponding rational literals.
* `Instant` timestamps are modelled as natural numbers threaded explicitly
  through the operations that call `Instant::now()` (`now : ℕ`).  Rust's
  `Instant` is monotone but two consecutive calls may return equal values,
  so no strictness is built into the model.
* `HashMap<String, _>` becomes an association list; `HashSet` becomes a list
  with membership up to the source's `PartialEq`.  String render keys built by
  `format!` are modelled by the tuple of the formatted fields.
* The decode worker's channels and thread are modelled by a state machine on
  the worker's local state (task queue + current-visible set) whose outputs
  (emitted results, executed decodes, decode errors) are returned explicitly.
* Struct fields that no verified operation reads or writes (logging, the
  per-page link cache, outline items, the decode-service handle) are omitted.
-/

namespace RReader

/-- Scroll orientation (`Orientation` in `page/view_state.rs`). -/
inductive Orientation where
  | vertical
  | horizontal
deriving DecidableEq, Repr

/-- Rectangle (`Rect` in `decoder/mod.rs`), `f32` fields as `ℚ`. -/
structure Rect where
  left : ℚ
  top : ℚ
  right : ℚ
  bottom : ℚ
deriving DecidableEq, Repr

namespace Rect

/-- `Rect::width`. -/
def width (r : Rect) : ℚ := r.right - r.left

/-- `Rect::height`. -/
def height (r : Rect) : ℚ := r.bottom - r.top

end Rect

/-- Page information (`PageInfo` in `decoder/mod.rs`). -/
structure PageInfo where
  index : ℕ
  width : ℚ
  height : ℚ
  scale : ℚ
  cropBounds : Option Rect
deriving DecidableEq, Repr

namespace PageInfo

/-- `PageInfo::get_width`. -/
def get_width (p : PageInfo) (useCrop : Bool) : ℚ :=
  match useCrop, p.cropBounds with
  | true, some crop => crop.width
  | _, _ => p.width

/-- `PageInfo::get_height`. -/
def get_height (p : PageInfo) (useCrop : Bool) : ℚ :=
  match useCrop, p.cropBounds with
  | true, some crop => crop.height
  | _, _ => p.height

end PageInfo

/-- A render block of a page (`PageNode`); only the fields the verified
operations touch are kept (identity and relative bounds). -/
structure PageNode where
  pageIndex : ℕ
  bounds : Rect
deriving DecidableEq, Repr

/-- A document link (`Link` in `decoder/link.rs`); the target data is not
read by any verified operation and is abstracted to its bounds. -/
structure Link where
  bounds : Rect
deriving DecidableEq, Repr

/-- A laid-out page (`Page` in `page/page.rs`). -/
structure Page where
  info : PageInfo
  bounds : Rect
  nodes : List PageNode
  links : List Link
  width : ℚ
  height : ℚ
deriving DecidableEq, Repr

namespace Page

/-- `Page::update`: store the new scaled size and document-space bounds. -/
def update (p : Page) (width height : ℚ) (bounds : Rect) : Page :=
  { p with width := width, height := height, bounds := bounds }

/-- `Page::recycle`: drop all render nodes. -/
def recycle (p : Page) : Page :=
  { p with nodes := [] }

end Page

/-! ## Image cache (`cache/cache.rs`)

`ImageCache` is a bounded key→image map with LRU eviction.  Images are
abstracted to identifiers (`ℕ`); `Instant` timestamps are `ℕ` supplied by the
caller as `now`.  The `HashMap` becomes an association list whose iteration
order stands in for the hash map's arbitrary order. -/

/-- A cached image with its LRU metadata (`CachedImage`). -/
structure CachedImage where
  image : ℕ
  timestamp : ℕ
  accessCount : ℕ
deriving DecidableEq, Repr

/-- Bounded image cache (`ImageCache`), generic over the key type the way the
source is generic in the strings it receives. -/
structure ImageCache (κ : Type) where
  entries : List (κ × CachedImage)
  maxSize : ℕ
deriving DecidableEq, Repr

namespace ImageCache

variable {κ : Type} [DecidableEq κ]

/-- `ImageCache::new`. -/
def new (maxSize : ℕ) : ImageCache κ :=
  { entries := [], maxSize := maxSize }

/-- Keys currently stored. -/
def keys (c : ImageCache κ) : List κ := c.entries.map Prod.fst

/-- Lookup without the LRU side effect (the read half of `HashMap::get_mut`). -/
def find? (c : ImageCache κ) (k : κ) : Option CachedImage :=
  c.entries.lookup k

/-- `ImageCache::get`: on a hit, bump the access count, refresh the
timestamp to `now` and return the image; on a miss return nothing. -/
def get (c : ImageCache κ) (k : κ) (now : ℕ) : Option ℕ × ImageCache κ :=
  match c.entries.lookup k with
  | some cached =>
      (some cached.image,
        { c with
          entries := c.entries.map fun kv =>
            if kv.1 = k then
              (kv.1, { kv.2 with accessCount := kv.2.accessCount + 1, timestamp := now })
            else kv })
  | none => (none, c)

/-- The key selected by `ImageCache::evict_lru`'s scan: the first entry (in
iteration order) whose timestamp is strictly below every earlier candidate,
starting the comparison from `Instant::now()`. -/
def evictKey (entries : List (κ × CachedImage)) (now : ℕ) : Option κ :=
  (entries.foldl
    (fun acc kv => if kv.2.timestamp < acc.2 then (some kv.1, kv.2.timestamp) else acc)
    ((none : Option κ), now)).1

/-- `ImageCache::evict_lru`: remove the selected entry, if any. -/
def evict_lru (entries : List (κ × CachedImage)) (now : ℕ) : List (κ × CachedImage) :=
  match evictKey entries now with
  | some k => entries.filter fun kv => decide (kv.1 ≠ k)
  | none => entries

/-- `ImageCache::put`: evict when at capacity, then insert (replacing any
existing binding for the key, as `HashMap::insert` does). -/
def put (c : ImageCache κ) (k : κ) (image : ℕ) (now : ℕ) : ImageCache κ :=
  let entries := if c.maxSize ≤ c.entries.length then evict_lru c.entries now else c.entries
  { c with
    entries := (entries.filter fun kv => decide (kv.1 ≠ k)) ++
      [(k, { image := image, timestamp := now, accessCount := 1 })] }

/-- `ImageCache::remove`. -/
def remove (c : ImageCache κ) (k : κ) : ImageCache κ :=
  { c with entries := c.entries.filter fun kv => decide (kv.1 ≠ k) }

/-- `ImageCache::clear`. -/
def clear (c : ImageCache κ) : ImageCache κ :=
  { c with entries := [] }

/-- `ImageCache::size`. -/
def size (c : ImageCache κ) : ℕ := c.entries.length

end ImageCache

/-! ## Page cache (`PageCache` in `cache/cache.rs`)

Two independently sized `ImageCache` instances.  Full-page image keys are
built by `format!("page_{}_{:.2}", page_index, zoom)`; the formatted pair is
modelled by `(page_index, round (zoom * 100))`.  Thumbnail keys: the caller in
`page/view_state.rs` passes the key built by `generate_thumbnail_key`
(`format!("{}-{}-{}", index, width, height)`), modelled by the formatted
triple. -/

/-- The thumbnail render key produced by `generate_thumbnail_key`
(`decoder/pdf/utils.rs`): page index, native width, native height. -/
abbrev ThumbKey : Type := ℕ × ℚ × ℚ

/-- Full page image key: page index and the zoom formatted to 2 decimals. -/
abbrev ImageKey : Type := ℕ × ℤ

/-- `generate_thumbnail_key` in `decoder/pdf/utils.rs`. -/
def generate_thumbnail_key (page : Page) : ThumbKey :=
  (page.info.index, page.info.width, page.info.height)

/-- `PageCache`. -/
structure PageCache where
  imageCache : ImageCache ImageKey
  thumbnailCache : ImageCache ThumbKey
deriving DecidableEq, Repr

namespace PageCache

/-- `PageCache::new`. -/
def new (maxImages maxThumbnails : ℕ) : PageCache :=
  { imageCache := ImageCache.new maxImages, thumbnailCache := ImageCache.new maxThumbnails }

/-- `PageCache::get_page_image`. -/
def get_page_image (c : PageCache) (pageIndex : ℕ) (zoom : ℚ) (now : ℕ) :
    Option ℕ × PageCache :=
  let r := c.imageCache.get (pageIndex, round (zoom * 100)) now
  (r.1, { c with imageCache := r.2 })

/-- `PageCache::put_page_image`. -/
def put_page_image (c : PageCache) (pageIndex : ℕ) (zoom : ℚ) (image : ℕ) (now : ℕ) :
    PageCache :=
  { c with imageCache := c.imageCache.put (pageIndex, round (zoom * 100)) image now }

/-- `PageCache::get_thumbnail`.  The copy of `cache/cache.rs` in this tree
still has the older `page_index : usize` signature, while its only caller,
`PageViewState::update_visible_pages`, passes the string produced by
`generate_thumbnail_key`; the embedding follows the caller and keys the
thumbnail cache by that render key. -/
def get_thumbnail (c : PageCache) (key : ThumbKey) (now : ℕ) : Option ℕ × PageCache :=
  let r := c.thumbnailCache.get key now
  (r.1, { c with thumbnailCache := r.2 })

/-- `PageCache::put_thumbnail`. -/
def put_thumbnail (c : PageCache) (key : ThumbKey) (image : ℕ) (now : ℕ) : PageCache :=
  { c with thumbnailCache := c.thumbnailCache.put key image now }

/-- `PageCache::clear`. -/
def clear (c : PageCache) : PageCache :=
  { c with imageCache := c.imageCache.clear, thumbnailCache := c.thumbnailCache.clear }

end PageCache

/-- One cache operation together with the `Instant::now()` value observed
while executing it. -/
inductive CacheOp (κ : Type) where
  | get (k : κ)
  | put (k : κ) (image : ℕ)
  | remove (k : κ)
  | clear
deriving DecidableEq, Repr

namespace CacheOp

variable {κ : Type} [DecidableEq κ]

/-- Apply one timed operation to the cache. -/
def apply (c : ImageCache κ) (op : CacheOp κ × ℕ) : ImageCache κ :=
  match op.1 with
  | .get k => (c.get k op.2).2
  | .put k image => c.put k image op.2
  | .remove k => c.remove k
  | .clear => c.clear

/-- Run a sequence of timed operations from a starting cache. -/
def run (c : ImageCache κ) (ops : List (CacheOp κ × ℕ)) : ImageCache κ :=
  ops.foldl apply c

end CacheOp

/-! ## Decode worker data (`decoder/decode_service.rs`) -/

/-- Request priority (`Priority`). -/
inductive Priority where
  | thumbnail
  | fullImage
  | cropped
deriving DecidableEq, Repr

/-- The visibility-check callback type (`VisibilityChecker`): page index to
visibility. -/
abbrev VisibilityChecker : Type := ℕ → Bool

/-- A render request (`RenderPage`). -/
structure RenderPage where
  key : ThumbKey
  pageInfo : PageInfo
  crop : ℤ
  priority : Priority
  visibilityChecker : Option VisibilityChecker

/-- The source's `PartialEq for RenderPage`: key, index, crop equal and the
float fields within the stated tolerances. -/
def renderPageEq (a b : RenderPage) : Bool :=
  decide (a.key = b.key) && decide (a.pageInfo.index = b.pageInfo.index) &&
  decide (|a.pageInfo.width - b.pageInfo.width| < 1/10) &&
  decide (|a.pageInfo.height - b.pageInfo.height| < 1/10) &&
  decide (|a.pageInfo.scale - b.pageInfo.scale| < 1/1000) &&
  decide (a.crop = b.crop)

/-- A decode result (`DecodeResult`); pixel bytes abstracted to `List ℕ`. -/
structure DecodeResult where
  key : ThumbKey
  pageInfo : PageInfo
  imageData : List ℕ
  imageWidth : ℕ
  imageHeight : ℕ
  links : List Link

/-- The document decoder capability consumed by the worker (`Decoder` trait):
`render_page` may fail (`Option`), `get_page_links` likewise. -/
structure Decoder where
  renderPage : PageInfo → Bool → Option (List ℕ × ℕ × ℕ)
  getPageLinks : ℕ → Option (List Link)

/-! ## View state (`page/view_state.rs`)

Fields never read or written by the verified operations (the link cache, the
outline list, the decode-service handle) are omitted; the mutex-guarded
shared snapshot (`visible_rect`, `page_bounds_map`) is inlined as plain
fields, since every verified operation runs on the owning thread. -/

/-- `PageViewState`. -/
structure ViewState where
  cache : PageCache
  pages : List Page
  orientation : Orientation
  viewOffset : ℚ × ℚ
  zoom : ℚ
  crop : ℤ
  totalWidth : ℚ
  totalHeight : ℚ
  viewSize : ℚ × ℚ
  preloadScreens : ℚ
  visiblePages : List ℕ
  visibleRect : Rect
  pageBoundsMap : List (ℕ × Rect)
deriving DecidableEq

namespace ViewState

/-- `PageViewState::new`. -/
def new (orientation : Orientation) (cropInt : ℤ) : ViewState :=
  { cache := PageCache.new 24 10
    pages := []
    orientation := orientation
    viewOffset := (0, 0)
    zoom := 1
    crop := cropInt
    totalWidth := 0
    totalHeight := 0
    viewSize := (0, 0)
    preloadScreens := 1
    visiblePages := []
    visibleRect := ⟨0, 0, 0, 0⟩
    pageBoundsMap := [] }

/-- The vertical layout pass of `layout_vertical`: walk the pages with a
running `current_y` cursor, returning the laid-out pages and the final
cursor. -/
def layoutPagesVertical (scaledWidth : ℚ) (useCrop : Bool) :
    ℚ → List Page → List Page × ℚ
  | currentY, [] => ([], currentY)
  | currentY, page :: rest =>
      let pageWidth := page.info.get_width useCrop
      let pageHeight := page.info.get_height useCrop
      let scale := scaledWidth / pageWidth
      let scaledHeight := pageHeight * scale
      let bounds : Rect := ⟨0, currentY, scaledWidth, currentY + scaledHeight⟩
      let page' :=
        { page.update scaledWidth scaledHeight bounds with
          info := { page.info with scale := scale } }
      let r := layoutPagesVertical scaledWidth useCrop (currentY + scaledHeight) rest
      (page' :: r.1, r.2)

/-- `PageViewState::layout_vertical`. -/
def layout_vertical (s : ViewState) : ViewState :=
  let scaledWidth := s.viewSize.1 * s.zoom
  let r := layoutPagesVertical scaledWidth (decide (s.crop = 1)) 0 s.pages
  { s with pages := r.1, totalWidth := scaledWidth, totalHeight := r.2 }

/-- The horizontal layout pass of `layout_horizontal` (running `current_x`). -/
def layoutPagesHorizontal (scaledHeight : ℚ) (useCrop : Bool) :
    ℚ → List Page → List Page × ℚ
  | currentX, [] => ([], currentX)
  | currentX, page :: rest =>
      let pageWidth := page.info.get_width useCrop
      let pageHeight := page.info.get_height useCrop
      let scale := scaledHeight / pageHeight
      let scaledWidth := pageWidth * scale
      let bounds : Rect := ⟨currentX, 0, currentX + scaledWidth, scaledHeight⟩
      let page' :=
        { page.update scaledWidth scaledHeight bounds with
          info := { page.info with scale := scale } }
      let r := layoutPagesHorizontal scaledHeight useCrop (currentX + scaledWidth) rest
      (page' :: r.1, r.2)

/-- `PageViewState::layout_horizontal`. -/
def layout_horizontal (s : ViewState) : ViewState :=
  let scaledHeight := s.viewSize.2 * s.zoom
  let r := layoutPagesHorizontal scaledHeight (decide (s.crop = 1)) 0 s.pages
  { s with pages := r.1, totalWidth := r.2, totalHeight := scaledHeight }

/-- `PageViewState::recalculate_layout`. -/
def recalculate_layout (s : ViewState) : ViewState :=
  if s.viewSize.1 = 0 ∨ s.viewSize.2 = 0 then s
  else
    match s.orientation with
    | .vertical => s.layout_vertical
    | .horizontal => s.layout_horizontal

/-- `PageViewState::update_view_size`.  The source compares the zoom with an
absolute tolerance: `(self.zoom - zoom).abs() > 0.001`. -/
def update_view_size (s : ViewState) (width height zoom : ℚ) (force : Bool) : ViewState :=
  let sizeChanged := s.viewSize.1 ≠ width ∨ s.viewSize.2 ≠ height
  let zoomChanged := 1/1000 < |s.zoom - zoom|
  if ¬sizeChanged ∧ ¬zoomChanged ∧ force = false then s
  else recalculate_layout { s with viewSize := (width, height), zoom := zoom }

/-- `PageViewState::update_zoom`. -/
def update_zoom (s : ViewState) (zoom : ℚ) : ViewState :=
  s.update_view_size s.viewSize.1 s.viewSize.2 zoom true

/-- `PageViewState::update_offset`. -/
def update_offset (s : ViewState) (x y : ℚ) : ViewState :=
  { s with viewOffset := (x, y) }

/-- `PageViewState::reset` (the cache is cleared; the omitted link/outline
fields are also cleared by the source). -/
def reset (s : ViewState) : ViewState :=
  { s with
    pages := []
    totalWidth := 0
    totalHeight := 0
    visiblePages := []
    cache := s.cache.clear }

/-- `PageViewState::shutdown`: recycle every page, then clear everything. -/
def shutdown (s : ViewState) : ViewState :=
  { s with
    pages := []
    visiblePages := []
    cache := s.cache.clear }

/-- The expanded visible rectangle computed by `update_visible_pages`
(viewport plus the preload margin along the scroll axis). -/
def computeVisibleRect (s : ViewState) : Rect :=
  let offsetX := s.viewOffset.1
  let offsetY := s.viewOffset.2
  let viewWidth := s.viewSize.1
  let viewHeight := s.viewSize.2
  let preloadDistance :=
    match s.orientation with
    | .vertical => viewHeight * s.preloadScreens
    | .horizontal => viewWidth * s.preloadScreens
  match s.orientation with
  | .vertical =>
      ⟨-offsetX, -offsetY, -offsetX + viewWidth, -offsetY + viewHeight + preloadDistance⟩
  | .horizontal =>
      ⟨-offsetX, -offsetY, -offsetX + viewWidth + preloadDistance, -offsetY + viewHeight⟩

/-- The predicate of the `find_first_visible` binary search: the page's
trailing edge exceeds the rectangle's leading edge.  Out-of-range indices
(never probed by the search) are mapped to `false`. -/
def firstVisiblePred (pages : List Page) (o : Orientation) (visibleRect : Rect) (i : ℕ) :
    Bool :=
  match pages.get? i with
  | some page =>
      match o with
      | .vertical => decide (page.bounds.bottom > visibleRect.top)
      | .horizontal => decide (page.bounds.right > visibleRect.left)
  | none => false

/-- The predicate of the `find_last_visible` binary search: the page's
leading edge is strictly before the rectangle's trailing edge. -/
def lastVisiblePred (pages : List Page) (o : Orientation) (visibleRect : Rect) (i : ℕ) :
    Bool :=
  match pages.get? i with
  | some page =>
      match o with
      | .vertical => decide (page.bounds.top < visibleRect.bottom)
      | .horizontal => decide (page.bounds.left < visibleRect.right)
  | none => false

/-- The `while low < high` loop of `find_first_visible`, with explicit fuel
(each iteration strictly shrinks `high - low`, so any fuel of at least
`high - low + 1` reaches the exit). -/
def bsearchFirst (pred : ℕ → Bool) : ℕ → ℕ → ℕ → ℕ → ℕ
  | 0, _, _, result => result
  | fuel + 1, low, high, result =>
      if low < high then
        let mid := (low + high) / 2
        if pred mid then bsearchFirst pred fuel low mid mid
        else bsearchFirst pred fuel (mid + 1) high result
      else result

/-- The `while low < high` loop of `find_last_visible`. -/
def bsearchLast (pred : ℕ → Bool) : ℕ → ℕ → ℕ → ℕ → ℕ
  | 0, _, _, result => result
  | fuel + 1, low, high, result =>
      if low < high then
        let mid := (low + high) / 2
        if pred mid then bsearchLast pred fuel (mid + 1) high mid
        else bsearchLast pred fuel low mid result
      else result

/-- `PageViewState::find_first_visible`: `low = 0`, `high = result = len`. -/
def find_first_visible (pages : List Page) (o : Orientation) (visibleRect : Rect) : ℕ :=
  bsearchFirst (firstVisiblePred pages o visibleRect)
    (pages.length + 1) 0 pages.length pages.length

/-- `PageViewState::find_last_visible`: `low = 0`, `high = len`, `result = 0`. -/
def find_last_visible (pages : List Page) (o : Orientation) (visibleRect : Rect) : ℕ :=
  bsearchLast (lastVisiblePred pages o visibleRect)
    (pages.length + 1) 0 pages.length 0

/-- The visibility-check closure built by `update_visible_pages`.  The Rust
closure reads the mutex-guarded shared rectangle and bounds map at call time;
the embedding captures the snapshot most recently published, which is what
the worker observes. -/
def mkVisibilityChecker (o : Orientation) (visibleRect : Rect)
    (boundsMap : List (ℕ × Rect)) : VisibilityChecker :=
  fun pageIndex =>
    match boundsMap.lookup pageIndex with
    | some pageBounds =>
        match o with
        | .vertical =>
            decide (pageBounds.bottom > visibleRect.top ∧ pageBounds.top < visibleRect.bottom)
        | .horizontal =>
            decide (pageBounds.right > visibleRect.left ∧ pageBounds.left < visibleRect.right)
    | none => false

/-- Placeholder page for the (in-bounds-only) index accesses of the source. -/
def defaultPage : Page :=
  { info := { index := 0, width := 0, height := 0, scale := 0, cropBounds := none }
    bounds := ⟨0, 0, 0, 0⟩
    nodes := []
    links := []
    width := 0
    height := 0 }

/-- The `for i in first..=last.min(len-1)` body of `update_visible_pages`:
push every index onto `visible_pages`; for a page of positive scaled size
whose key misses the thumbnail cache, build a `RenderRequest`.  Returns the
cache (whose hit timestamps were refreshed by `get_thumbnail`), the visited
indices, and the batched requests. -/
def visitPages (cache : PageCache) (pages : List Page) (crop : ℤ)
    (checker : VisibilityChecker) (now : ℕ) :
    List ℕ → PageCache × List ℕ × List RenderPage
  | [] => (cache, [], [])
  | i :: rest =>
      let page := pages.getD i defaultPage
      let key := generate_thumbnail_key page
      if 0 < page.width ∧ 0 < page.height then
        let hit := cache.get_thumbnail key now
        match hit.1 with
        | none =>
            let req : RenderPage :=
              { key := key
                pageInfo := page.info
                crop := crop
                priority := .thumbnail
                visibilityChecker := some checker }
            let r := visitPages hit.2 pages crop checker now rest
            (r.1, i :: r.2.1, req :: r.2.2)
        | some _ =>
            let r := visitPages hit.2 pages crop checker now rest
            (r.1, i :: r.2.1, r.2.2)
      else
        let r := visitPages cache pages crop checker now rest
        (r.1, i :: r.2.1, r.2.2)

/-- `PageViewState::update_visible_pages`.  Returns the updated state and the
batch passed to `DecodeService::render_pages` (empty batches are not sent by
the source, which the dispatch model treats identically). -/
def update_visible_pages (s : ViewState) (now : ℕ) : ViewState × List RenderPage :=
  let visibleRect := computeVisibleRect s
  let boundsMap := s.pages.map fun p => (p.info.index, p.bounds)
  let first := find_first_visible s.pages s.orientation visibleRect
  let last := find_last_visible s.pages s.orientation visibleRect
  let checker := mkVisibilityChecker s.orientation visibleRect boundsMap
  let idxs : List ℕ :=
    if first ≤ last ∧ first < s.pages.length then
      List.range' first (min last (s.pages.length - 1) + 1 - first)
    else []
  let r := visitPages s.cache s.pages s.crop checker now idxs
  ({ s with
      cache := r.1
      visiblePages := r.2.1
      visibleRect := visibleRect
      pageBoundsMap := boundsMap }, r.2.2)

/-- `PageViewState::jump_to_page`. -/
def jump_to_page (s : ViewState) (pageIndex : ℕ) : Option (ℚ × ℚ) × ViewState :=
  if h : pageIndex < s.pages.length then
    let page := s.pages.get ⟨pageIndex, h⟩
    let newOffset :=
      match s.orientation with
      | .vertical => (s.viewOffset.1, -page.bounds.top)
      | .horizontal => (-page.bounds.left, s.viewOffset.2)
    (some newOffset, { s with viewOffset := newOffset })
  else (none, s)

/-- `PageViewState::get_first_visible_page`. -/
def get_first_visible_page (s : ViewState) : Option ℕ :=
  s.visiblePages.head?

/-- `PageViewState::set_crop`. -/
def set_crop (s : ViewState) (crop : ℤ) (now : ℕ) : ViewState × List RenderPage :=
  if s.crop ≠ crop then
    let s1 := recalculate_layout { s with crop := crop }
    let s2 := { s1 with pages := s1.pages.map Page.recycle }
    update_visible_pages s2 now
  else (s, [])

end ViewState

/-! ## Decode worker loop (`DecodeService::decode_loop` / `handle_task`)

The worker's local state is its FIFO task queue plus the `current_visible`
set refreshed by each `RenderPages` batch.  Popping a request and (maybe)
decoding it is one `step`; the outputs are the results emitted on the result
channel, the keys for which a decode was actually executed, and the keys
whose decode failed (logged and dropped by the source). -/

/-- Worker-local state of `decode_loop`. -/
structure WorkerState where
  queue : List RenderPage
  currentVisible : List RenderPage

/-- The de-duplicating enqueue of `DecodeTask::RenderPages`: append each
request unless a request with the same key is already queued. -/
def enqueueRenderPages (pages : List RenderPage) (queue : List RenderPage) :
    List RenderPage :=
  pages.foldl
    (fun q page => if q.any fun p => decide (p.key = page.key) then q else q ++ [page])
    queue

/-- `handle_task` on a `RenderPages` batch: refresh `current_visible`
(clear + extend) and enqueue with de-duplication. -/
def handleRenderPages (pages : List RenderPage) (st : WorkerState) : WorkerState :=
  { queue := enqueueRenderPages pages st.queue, currentVisible := pages }

/-- The visibility re-validation performed right before a decode: the
request's callback if present, else membership in `current_visible` under
the source's `PartialEq`. -/
def requestVisible (cv : List RenderPage) (r : RenderPage) : Bool :=
  match r.visibilityChecker with
  | some checker => checker r.pageInfo.index
  | none => cv.any fun p => renderPageEq p r

/-- Execution of one popped request: skip it when invisible; otherwise
decode (when a document is loaded), emitting one result on success and
dropping the failure otherwise. -/
def processRequest (dec : Option Decoder) (cv : List RenderPage) (r : RenderPage) :
    List DecodeResult × List ThumbKey × List ThumbKey :=
  if requestVisible cv r then
    match dec with
    | some d =>
        match d.renderPage r.pageInfo (decide (r.crop ≠ 0)) with
        | some (imageData, w, h) =>
            let links := (d.getPageLinks r.pageInfo.index).getD []
            ([{ key := r.key
                pageInfo := r.pageInfo
                imageData := imageData
                imageWidth := w
                imageHeight := h
                links := links }], [r.key], [])
        | none => ([], [r.key], [r.key])
    | none => ([], [], [])
  else ([], [], [])

/-- One iteration of phase 2 of `decode_loop`: pop the queue head (if any)
and execute it. -/
def processOne (dec : Option Decoder) (st : WorkerState) :
    WorkerState × (List DecodeResult × List ThumbKey × List ThumbKey) :=
  match st.queue with
  | [] => (st, ([], [], []))
  | r :: rest => ({ st with queue := rest }, processRequest dec st.currentVisible r)

/-- Run the queue to exhaustion with no intervening tasks, concatenating the
outputs in FIFO order. -/
def drainQueue (dec : Option Decoder) (cv : List RenderPage) :
    List RenderPage → List DecodeResult × List ThumbKey × List ThumbKey
  | [] => ([], [], [])
  | r :: rest =>
      let o := processRequest dec cv r
      let o' := drainQueue dec cv rest
      (o.1 ++ o'.1, o.2.1 ++ o'.2.1, o.2.2 ++ o'.2.2)

/-- The worker events that touch the render queue. -/
inductive WorkerEvent where
  | renderPages (pages : List RenderPage)
  | step

/-- Apply one event to the worker state. -/
def applyWorkerEvent (dec : Option Decoder) (st : WorkerState) :
    WorkerEvent → WorkerState
  | .renderPages pages => handleRenderPages pages st
  | .step => (processOne dec st).1

/-- The worker state reached from the initial empty state. -/
def runWorker (dec : Option Decoder) (events : List WorkerEvent) : WorkerState :=
  events.foldl (applyWorkerEvent dec) { queue := [], currentVisible := [] }

/-! ## Specification-side definitions

These follow the spec's words, for comparison with the code-side functions:
the brute-force visibility scan and the monotone-bounds hypothesis. -/

/-- Leading edge along the scroll axis (top for vertical, left for
horizontal). -/
def leadingEdge (o : Orientation) (r : Rect) : ℚ :=
  match o with
  | .vertical => r.top
  | .horizontal => r.left

/-- Trailing edge along the scroll axis (bottom for vertical, right for
horizontal). -/
def trailingEdge (o : Orientation) (r : Rect) : ℚ :=
  match o with
  | .vertical => r.bottom
  | .horizontal => r.right

/-- Whether page `i`'s bounds intersect the visible rectangle along the
scroll axis (the intersection test of the visibility checker). -/
def pageIntersectsVisible (pages : List Page) (o : Orientation) (r : Rect) (i : ℕ) :
    Bool :=
  match pages.get? i with
  | some page =>
      decide (trailingEdge o page.bounds > leadingEdge o r ∧
        leadingEdge o page.bounds < trailingEdge o r)
  | none => false

/-- Brute-force linear scan: every index whose page intersects the expanded
visible rectangle. -/
def bruteVisiblePages (pages : List Page) (o : Orientation) (r : Rect) : List ℕ :=
  (List.range pages.length).filter (pageIntersectsVisible pages o r)

/-- Page bounds are strictly monotonic along the scroll axis: both edges
strictly increase with the index (the `ViewState` layout invariant). -/
def boundsMonotone (pages : List Page) (o : Orientation) : Prop :=
  ∀ i j, i < j → j < pages.length →
    leadingEdge o (pages.getD i ViewState.defaultPage).bounds <
      leadingEdge o (pages.getD j ViewState.defaultPage).bounds ∧
    trailingEdge o (pages.getD i ViewState.defaultPage).bounds <
      trailingEdge o (pages.getD j ViewState.defaultPage).bounds

/-- The running vertical stacking position: the sum of the scaled heights of
the pages before index `i`, for target width `sw` (viewport width times
zoom) and crop disabled. -/
def vertStackTop (pages : List Page) (sw : ℚ) (i : ℕ) : ℚ :=
  ((pages.take i).map fun p => p.info.height * (sw / p.info.width)).sum

/-! ## Concrete states used by counterexamples and witnesses -/

/-- A fresh `PageInfo` as produced by document load. -/
def examplePageInfo (i : ℕ) (w h : ℚ) : PageInfo :=
  { index := i, width := w, height := h, scale := 1, cropBounds := none }

/-- A page before layout. -/
def examplePage (i : ℕ) (w h : ℚ) : Page :=
  { info := examplePageInfo i w h
    bounds := ⟨0, 0, 0, 0⟩
    nodes := []
    links := []
    width := 0
    height := 0 }

/-- A laid-out page occupying `[5, 10]` on the scroll axis. -/
def spuriousPage : Page :=
  { examplePage 0 10 5 with bounds := ⟨0, 5, 10, 10⟩, width := 10, height := 5 }

/-- One page at `[5, 10]`, viewport height `2`, half-screen preload: the
expanded visible interval is `[0, 3]`, disjoint from the page. -/
def spuriousState : ViewState :=
  { ViewState.new .vertical 0 with
    pages := [spuriousPage]
    viewSize := (10, 2)
    preloadScreens := 1/2 }

/-- A page laid out at zoom `1` for a `100`-wide viewport (scale `2`). -/
def tolerancePage : Page :=
  { examplePage 0 50 50 with
    info := { examplePageInfo 0 50 50 with scale := 2 }
    bounds := ⟨0, 0, 100, 100⟩
    width := 100
    height := 100 }

/-- View state already laid out at `viewSize = (100, 100)`, `zoom = 1`. -/
def toleranceState : ViewState :=
  { ViewState.new .vertical 0 with
    viewSize := (100, 100)
    pages := [tolerancePage] }

/-- A view state whose thumbnail cache holds one entry. -/
def cachedState : ViewState :=
  { ViewState.new .vertical 0 with
    cache := (PageCache.new 24 10).put_thumbnail (0, 10, 5) 42 0 }

/-- One page at `[5, 10]` with viewport height `6` and one preload screen:
the expanded visible interval `[0, 12]` intersects the page. -/
def visibleState : ViewState :=
  { ViewState.new .vertical 0 with
    pages := [spuriousPage]
    viewSize := (10, 6)
    preloadScreens := 1 }

/-- A render request whose page is reported visible at execution time. -/
def exRenderPage : RenderPage :=
  { key := (0, 10, 5)
    pageInfo := examplePageInfo 0 10 5
    crop := 0
    priority := .thumbnail
    visibilityChecker := some fun _ => true }

/-- A render request whose page is reported no longer visible. -/
def exInvisiblePage : RenderPage :=
  { key := (1, 10, 5)
    pageInfo := examplePageInfo 1 10 5
    crop := 0
    priority := .thumbnail
    visibilityChecker := some fun _ => false }

/-- A decoder that renders every page to a 1×1 image with no links. -/
def exDecoder : Decoder :=
  { renderPage := fun _ _ => some ([], 1, 1)
    getPageLinks := fun _ => some [] }

/-! # Theorems -/

section Theorems

/- Core marks the rational-number operations irreducible, which blocks
`decide` on concrete states; re-enable unfolding locally so that concrete
evaluations go through the kernel. -/
attribute [local semireducible] Rat.add Rat.sub Rat.mul Rat.inv

/-! ## Generic helper lemmas -/

theorem PageInfo.get_width_false (p : PageInfo) : p.get_width false = p.width := by
  unfold PageInfo.get_width
  cases p.cropBounds <;> rfl

theorem PageInfo.get_height_false (p : PageInfo) : p.get_height false = p.height := by
  unfold PageInfo.get_height
  cases p.cropBounds <;> rfl

/-- `recalculate_layout` only rewrites the page list and the totals. -/
theorem ViewState.recalculate_layout_eq (s : ViewState) :
    ∃ pg tw th, s.recalculate_layout =
      { s with pages := pg, totalWidth := tw, totalHeight := th } := by
  unfold ViewState.recalculate_layout ViewState.layout_vertical ViewState.layout_horizontal
  split
  · exact ⟨s.pages, s.totalWidth, s.totalHeight, rfl⟩
  · cases s.orientation
    · exact ⟨_, _, _, rfl⟩
    · exact ⟨_, _, _, rfl⟩

theorem ViewState.recalculate_layout_cache (s : ViewState) :
    s.recalculate_layout.cache = s.cache := by
  obtain ⟨pg, tw, th, h⟩ := s.recalculate_layout_eq
  rw [h]

theorem ViewState.recalculate_layout_viewSize (s : ViewState) :
    s.recalculate_layout.viewSize = s.viewSize := by
  obtain ⟨pg, tw, th, h⟩ := s.recalculate_layout_eq
  rw [h]

theorem ViewState.recalculate_layout_zoom (s : ViewState) :
    s.recalculate_layout.zoom = s.zoom := by
  obtain ⟨pg, tw, th, h⟩ := s.recalculate_layout_eq
  rw [h]

/-- `update_view_size` either returns the state unchanged or relayouts the
state with the new size and zoom stored. -/
theorem ViewState.update_view_size_cases (s : ViewState) (w h z : ℚ) (force : Bool) :
    s.update_view_size w h z force = s ∨
    s.update_view_size w h z force =
      ViewState.recalculate_layout { s with viewSize := (w, h), zoom := z } := by
  simp only [ViewState.update_view_size]
  split
  · exact Or.inl rfl
  · exact Or.inr rfl

theorem ViewState.update_view_size_cache (s : ViewState) (w h z : ℚ) (force : Bool) :
    (s.update_view_size w h z force).cache = s.cache := by
  rcases s.update_view_size_cases w h z force with hc | hc <;> rw [hc]
  exact ViewState.recalculate_layout_cache _

/-- `ImageCache.get` never changes the key set (it only refreshes LRU
metadata on a hit). -/
theorem ImageCache.get_keys {κ : Type} [DecidableEq κ] (c : ImageCache κ) (k : κ)
    (now : ℕ) : ((c.get k now).2).keys = c.keys := by
  unfold ImageCache.get
  cases hl : c.entries.lookup k
  · rfl
  · show (c.entries.map _).map Prod.fst = c.entries.map Prod.fst
    rw [List.map_map]
    apply List.map_congr_left
    intro kv _
    by_cases hk : kv.1 = k <;> simp [hk]

/-- `ImageCache.get` preserves every lookup's presence. -/
theorem ImageCache.get_find?_isSome {κ : Type} [DecidableEq κ] (c : ImageCache κ)
    (k : κ) (now : ℕ) (k' : κ) :
    (((c.get k now).2).find? k').isSome = (c.find? k').isSome := by
  unfold ImageCache.get ImageCache.find?
  cases hl : c.entries.lookup k
  · rfl
  · show ((c.entries.map _).lookup k').isSome = (c.entries.lookup k').isSome
    clear hl
    induction c.entries with
    | nil => rfl
    | cons kv rest ih =>
        obtain ⟨a, b⟩ := kv
        by_cases hk : a = k
        · subst hk
          by_cases hk' : k' = a
          · subst hk'
            simp [List.lookup_cons]
          · simp [List.lookup_cons, beq_false_of_ne hk', ih]
        · by_cases hk' : k' = a
          · subst hk'
            simp [List.lookup_cons, hk]
          · simp [List.lookup_cons, beq_false_of_ne hk', hk, ih]

/-- `visitPages` only refreshes LRU metadata: the key sets of both cache
instances are unchanged. -/
theorem ViewState.visitPages_cache_keys (pages : List Page) (crop : ℤ)
    (ch : VisibilityChecker) (now : ℕ) (idxs : List ℕ) :
    ∀ cache : PageCache,
      ((ViewState.visitPages cache pages crop ch now idxs).1).imageCache.keys =
        cache.imageCache.keys ∧
      ((ViewState.visitPages cache pages crop ch now idxs).1).thumbnailCache.keys =
        cache.thumbnailCache.keys := by
  induction idxs with
  | nil => exact fun cache => ⟨rfl, rfl⟩
  | cons i rest ih =>
      intro cache
      simp only [ViewState.visitPages]
      split
      · split
        · refine ⟨(ih _).1.trans rfl, (ih _).2.trans ?_⟩
          exact ImageCache.get_keys _ _ _
        · refine ⟨(ih _).1.trans rfl, (ih _).2.trans ?_⟩
          exact ImageCache.get_keys _ _ _
      · exact ih cache

/-- `update_visible_pages` never adds or removes cache entries. -/
theorem ViewState.update_visible_pages_cache_keys (s : ViewState) (now : ℕ) :
    (((s.update_visible_pages now).1).cache.imageCache.keys =
      s.cache.imageCache.keys) ∧
    (((s.update_visible_pages now).1).cache.thumbnailCache.keys =
      s.cache.thumbnailCache.keys) := by
  simp only [ViewState.update_visible_pages]
  exact ViewState.visitPages_cache_keys _ _ _ _ _ _

/-- The vertical layout pass, with crop disabled: lengths are preserved, the
final cursor adds the total of the scaled heights, and every page gets the
claimed scale, size and stacked bounds. -/
theorem ViewState.layoutPagesVertical_false_spec (sw : ℚ) :
    ∀ (pages : List Page) (y : ℚ),
      (ViewState.layoutPagesVertical sw false y pages).1.length = pages.length ∧
      (ViewState.layoutPagesVertical sw false y pages).2 =
        y + vertStackTop pages sw pages.length ∧
      ∀ i, i < pages.length →
        ((ViewState.layoutPagesVertical sw false y pages).1.getD i
            ViewState.defaultPage).info.scale =
          sw / (pages.getD i ViewState.defaultPage).info.width ∧
        ((ViewState.layoutPagesVertical sw false y pages).1.getD i
            ViewState.defaultPage).info.index =
          (pages.getD i ViewState.defaultPage).info.index ∧
        ((ViewState.layoutPagesVertical sw false y pages).1.getD i
            ViewState.defaultPage).width = sw ∧
        ((ViewState.layoutPagesVertical sw false y pages).1.getD i
            ViewState.defaultPage).height =
          (pages.getD i ViewState.defaultPage).info.height *
            (sw / (pages.getD i ViewState.defaultPage).info.width) ∧
        ((ViewState.layoutPagesVertical sw false y pages).1.getD i
            ViewState.defaultPage).bounds =
          ⟨0, y + vertStackTop pages sw i, sw, y + vertStackTop pages sw (i + 1)⟩ := by
  intro pages
  induction pages with
  | nil =>
      intro y
      refine ⟨rfl, by simp [ViewState.layoutPagesVertical, vertStackTop], ?_⟩
      intro i hi
      exact absurd hi (by simp)
  | cons p rest ih =>
      intro y
      have hsh : p.info.get_height false * (sw / p.info.get_width false) =
          p.info.height * (sw / p.info.width) := by
        rw [PageInfo.get_width_false, PageInfo.get_height_false]
      refine ⟨?_, ?_, ?_⟩
      · simp only [ViewState.layoutPagesVertical, List.length_cons]
        rw [(ih _).1]
      · simp only [ViewState.layoutPagesVertical]
        rw [(ih _).2.1]
        simp only [vertStackTop, List.take_succ_cons, List.take_length, List.map_cons,
          List.sum_cons, PageInfo.get_width_false, PageInfo.get_height_false]
        ring
      · intro i hi
        match i with
        | 0 =>
            refine ⟨?_, ?_, ?_, ?_, ?_⟩ <;>
              simp [ViewState.layoutPagesVertical, Page.update, vertStackTop,
                PageInfo.get_width_false, PageInfo.get_height_false]
        | Nat.succ j =>
            have hj : j < rest.length := by simpa using hi
            have hrec := (ih (y + p.info.get_height false * (sw / p.info.get_width false))).2.2 j hj
            simp only [ViewState.layoutPagesVertical, List.getD_cons_succ]
            refine ⟨hrec.1, hrec.2.1, hrec.2.2.1, hrec.2.2.2.1, ?_⟩
            rw [hrec.2.2.2.2]
            simp only [vertStackTop, List.take_succ_cons, List.map_cons, List.sum_cons,
              PageInfo.get_width_false, PageInfo.get_height_false]
            rw [Rect.mk.injEq]
            refine ⟨rfl, by ring, rfl, by ring⟩

/-- Unfolding one step of the running stacking position. -/
theorem vertStackTop_succ (pages : List Page) (sw : ℚ) (i : ℕ) (hi : i < pages.length) :
    vertStackTop pages sw (i + 1) =
      vertStackTop pages sw i +
        (pages.getD i ViewState.defaultPage).info.height *
          (sw / (pages.getD i ViewState.defaultPage).info.width) := by
  unfold vertStackTop
  rw [List.take_succ, List.map_append, List.sum_append,
    List.getD_eq_getElem pages ViewState.defaultPage hi, List.getElem?_eq_getElem hi]
  simp

/-! ## C2 — vertical layout after `update_view_size` -/

/-- **C2 counterexample.**  The claim asserts the layout equalities after
every `update_view_size(w, h, z, force)` call; with `force = false` and a
zoom within the source's `0.001` tolerance of the stored zoom the call is a
no-op, and the pages keep their stale scale instead of `(w*z)/native_width`. -/
theorem C2_counterexample :
    toleranceState.orientation = .vertical ∧
    toleranceState.crop = 0 ∧
    (∀ p ∈ toleranceState.pages, 0 < p.info.width ∧ 0 < p.info.height) ∧
    ((toleranceState.update_view_size 100 100 (2001/2000) false).pages.getD 0
        ViewState.defaultPage).info.scale ≠ 100 * (2001/2000) / 50 := by
  decide

/-- **C2** (amended): for every viewport `(w, h)` with `w, h > 0`, zoom
`z > 0`, crop disabled and positive native page sizes, whenever
`update_view_size(w, h, z, force)` actually relayouts (i.e. is not skipped
by the no-op guard: the size changed, the zoom moved beyond the `0.001`
tolerance, or `force` is set), in vertical orientation every page's scale is
`(w*z)/native_width`, its scaled height is `native_height * scale`, the
pages stack top-to-bottom from `y = 0` with strictly increasing bounds,
`total_width = w*z` and `total_height = Σ native_height_i * (w*z /
native_width_i)`. -/
theorem C2_amended (s : ViewState) (w h z : ℚ) (force : Bool)
    (ho : s.orientation = .vertical) (hc : s.crop = 0)
    (hw : 0 < w) (hh : 0 < h) (hz : 0 < z)
    (hp : ∀ p ∈ s.pages, 0 < p.info.width ∧ 0 < p.info.height)
    (hguard : s.viewSize.1 ≠ w ∨ s.viewSize.2 ≠ h ∨ 1/1000 < |s.zoom - z| ∨
      force = true) :
    (s.update_view_size w h z force).pages.length = s.pages.length ∧
    (∀ i, i < s.pages.length →
      ((s.update_view_size w h z force).pages.getD i ViewState.defaultPage).info.scale =
        w * z / (s.pages.getD i ViewState.defaultPage).info.width ∧
      ((s.update_view_size w h z force).pages.getD i ViewState.defaultPage).height =
        (s.pages.getD i ViewState.defaultPage).info.height *
          (w * z / (s.pages.getD i ViewState.defaultPage).info.width) ∧
      ((s.update_view_size w h z force).pages.getD i ViewState.defaultPage).bounds.top =
        vertStackTop s.pages (w * z) i ∧
      ((s.update_view_size w h z force).pages.getD i ViewState.defaultPage).bounds.bottom =
        vertStackTop s.pages (w * z) (i + 1) ∧
      ((s.update_view_size w h z force).pages.getD i ViewState.defaultPage).bounds.top <
        ((s.update_view_size w h z force).pages.getD i ViewState.defaultPage).bounds.bottom) ∧
    vertStackTop s.pages (w * z) 0 = 0 ∧
    (s.update_view_size w h z force).totalWidth = w * z ∧
    (s.update_view_size w h z force).totalHeight =
      (s.pages.map fun p => p.info.height * (w * z / p.info.width)).sum := by
  have hres : s.update_view_size w h z force =
      ViewState.recalculate_layout { s with viewSize := (w, h), zoom := z } := by
    simp only [ViewState.update_view_size]
    rw [if_neg]
    intro hcond
    obtain ⟨h1, h2, h3⟩ := hcond
    rw [not_or] at h1
    rcases hguard with hg | hg | hg | hg
    · exact h1.1 hg
    · exact h1.2 hg
    · exact h2 hg
    · rw [hg] at h3
      exact absurd h3 (by simp)
  have hlay : ViewState.recalculate_layout { s with viewSize := (w, h), zoom := z } =
      ViewState.layout_vertical { s with viewSize := (w, h), zoom := z } := by
    unfold ViewState.recalculate_layout
    rw [if_neg]
    · show (match ({ s with viewSize := (w, h), zoom := z } : ViewState).orientation with
        | Orientation.vertical =>
            ViewState.layout_vertical { s with viewSize := (w, h), zoom := z }
        | Orientation.horizontal =>
            ViewState.layout_horizontal { s with viewSize := (w, h), zoom := z }) = _
      show (match s.orientation with
        | Orientation.vertical =>
            ViewState.layout_vertical { s with viewSize := (w, h), zoom := z }
        | Orientation.horizontal =>
            ViewState.layout_horizontal { s with viewSize := (w, h), zoom := z }) = _
      rw [ho]
    · rintro (h0 | h0)
      · exact hw.ne' h0
      · exact hh.ne' h0
  have hcrop : decide (({ s with viewSize := (w, h), zoom := z } : ViewState).crop = 1) =
      false := by
    show decide (s.crop = 1) = false
    rw [hc]
    rfl
  have hspec := ViewState.layoutPagesVertical_false_spec (w * z) s.pages 0
  have hmain : s.update_view_size w h z force =
      { s with
        viewSize := (w, h)
        zoom := z
        pages := (ViewState.layoutPagesVertical (w * z) false 0 s.pages).1
        totalWidth := w * z
        totalHeight := (ViewState.layoutPagesVertical (w * z) false 0 s.pages).2 } := by
    rw [hres, hlay]
    show ({ s with viewSize := (w, h), zoom := z } : ViewState).layout_vertical = _
    unfold ViewState.layout_vertical
    rw [hcrop]
  have hpos : ∀ i, i < s.pages.length →
      0 < (s.pages.getD i ViewState.defaultPage).info.height *
        (w * z / (s.pages.getD i ViewState.defaultPage).info.width) := by
    intro i hi
    have hmem : s.pages.getD i ViewState.defaultPage ∈ s.pages := by
      rw [List.getD_eq_getElem s.pages ViewState.defaultPage hi]
      exact List.getElem_mem hi
    have hpi := hp _ hmem
    exact mul_pos hpi.2 (div_pos (mul_pos hw hz) hpi.1)
  refine ⟨?_, ?_, ?_, ?_, ?_⟩
  · rw [hmain]
    exact hspec.1
  · intro i hi
    have hfield := hspec.2.2 i hi
    have htop : ((s.update_view_size w h z force).pages.getD i
        ViewState.defaultPage).bounds.top = vertStackTop s.pages (w * z) i := by
      rw [hmain]
      show ((ViewState.layoutPagesVertical (w * z) false 0 s.pages).1.getD i
        ViewState.defaultPage).bounds.top = _
      rw [hfield.2.2.2.2]
      show 0 + vertStackTop s.pages (w * z) i = _
      rw [zero_add]
    have hbot : ((s.update_view_size w h z force).pages.getD i
        ViewState.defaultPage).bounds.bottom = vertStackTop s.pages (w * z) (i + 1) := by
      rw [hmain]
      show ((ViewState.layoutPagesVertical (w * z) false 0 s.pages).1.getD i
        ViewState.defaultPage).bounds.bottom = _
      rw [hfield.2.2.2.2]
      show 0 + vertStackTop s.pages (w * z) (i + 1) = _
      rw [zero_add]
    refine ⟨?_, ?_, htop, hbot, ?_⟩
    · rw [hmain]
      exact hfield.1
    · rw [hmain]
      exact hfield.2.2.2.1
    · rw [htop, hbot, vertStackTop_succ s.pages (w * z) i hi]
      exact lt_add_of_pos_right _ (hpos i hi)
  · rfl
  · rw [hmain]
  · rw [hmain]
    show (ViewState.layoutPagesVertical (w * z) false 0 s.pages).2 = _
    rw [hspec.2.1, zero_add]
    unfold vertStackTop
    rw [List.take_length]

/-- **C2 witness**: the amended theorem applied to the spec's §8 scenario
page (native 600×800 at viewport width 800, zoom 1): scale `4/3`, total
width `800`. -/
theorem C2_witness :
    ((toleranceState.update_view_size 100 100 2 false).pages.getD 0
      ViewState.defaultPage).info.scale = 100 * 2 / 50 ∧
    (toleranceState.update_view_size 100 100 2 false).totalWidth = 100 * 2 := by
  have h := C2_amended toleranceState 100 100 2 false (by decide) (by decide)
    (by norm_num) (by norm_num) (by norm_num) (by decide)
    (Or.inr (Or.inr (Or.inl (by decide))))
  exact ⟨(h.2.1 0 (by decide)).1, h.2.2.2.1⟩

/-! ## C6 — cache clearing on zoom / crop change -/

/-- **C6 counterexample.**  The claim says the image cache is cleared
wholesale whenever the zoom is changed via `update_zoom` or the crop mode
via `set_crop`.  On a state whose thumbnail cache holds one entry, both
operations leave the entry in place. -/
theorem C6_counterexample :
    (cachedState.update_zoom 2).cache.thumbnailCache.entries ≠ [] ∧
    ((cachedState.set_crop 1 0).1).cache.thumbnailCache.entries ≠ [] := by
  decide

/-- **C6** (amended): `update_zoom` leaves the cache untouched and
`set_crop` preserves the key sets of both cache instances (its
`update_visible_pages` call merely refreshes LRU metadata on hits); the
wholesale `clear` happens on document close/reopen (`reset`), not on zoom
or crop-mode change. -/
theorem C6_amended :
    (∀ (s : ViewState) (z : ℚ), (s.update_zoom z).cache = s.cache) ∧
    (∀ (s : ViewState) (c : ℤ) (now : ℕ),
      ((s.set_crop c now).1).cache.imageCache.keys = s.cache.imageCache.keys ∧
      ((s.set_crop c now).1).cache.thumbnailCache.keys = s.cache.thumbnailCache.keys) ∧
    (∀ s : ViewState,
      s.reset.cache.imageCache.entries = [] ∧
      s.reset.cache.thumbnailCache.entries = []) := by
  refine ⟨fun s z => ViewState.update_view_size_cache s _ _ z true,
    fun s c now => ?_, fun s => ⟨rfl, rfl⟩⟩
  unfold ViewState.set_crop
  split
  · have h1 := ViewState.update_visible_pages_cache_keys
      { (ViewState.recalculate_layout { s with crop := c }) with
        pages := (ViewState.recalculate_layout { s with crop := c }).pages.map Page.recycle }
      now
    have h2 : (ViewState.recalculate_layout { s with crop := c }).cache = s.cache :=
      ViewState.recalculate_layout_cache _
    refine ⟨h1.1.trans ?_, h1.2.trans ?_⟩ <;> rw [h2]
  · exact ⟨rfl, rfl⟩

/-- **C6 witness**: the amended theorem evaluated on the concrete cached
state. -/
theorem C6_witness :
    (cachedState.update_zoom 2).cache = cachedState.cache ∧
    ((cachedState.set_crop 1 0).1).cache.thumbnailCache.keys =
      cachedState.cache.thumbnailCache.keys := by
  exact ⟨C6_amended.1 cachedState 2, (C6_amended.2.1 cachedState 1 0).2⟩

/-! ## Eviction-scan lemmas (`ImageCache::evict_lru`) -/

/-- The eviction scan does not move off an accumulator that no remaining
entry beats. -/
theorem ImageCache.evictFold_stable {κ : Type} (l : List (κ × CachedImage))
    (j : Option κ) (t : ℕ) (h : ∀ kv ∈ l, ¬ kv.2.timestamp < t) :
    l.foldl
      (fun acc kv => if kv.2.timestamp < acc.2 then (some kv.1, kv.2.timestamp) else acc)
      (j, t) = (j, t) := by
  induction l with
  | nil => rfl
  | cons kv rest ih =>
      simp only [List.foldl_cons]
      rw [if_neg (h kv (by simp))]
      exact ih fun kv' h' => h kv' (by simp [h'])

/-- When `e₀` is the entry with the strictly smallest timestamp and beats
the starting accumulator, the eviction scan selects it. -/
theorem ImageCache.evictFold_min {κ : Type} (e₀ : κ × CachedImage) :
    ∀ (l : List (κ × CachedImage)) (acc : Option κ × ℕ),
      e₀ ∈ l → (∀ kv ∈ l, kv ≠ e₀ → e₀.2.timestamp < kv.2.timestamp) →
      e₀.2.timestamp < acc.2 →
      l.foldl
        (fun acc kv =>
          if kv.2.timestamp < acc.2 then (some kv.1, kv.2.timestamp) else acc)
        acc = (some e₀.1, e₀.2.timestamp) := by
  intro l
  induction l with
  | nil =>
      intro acc hmem
      exact absurd hmem (List.not_mem_nil _)
  | cons kv rest ih =>
      intro acc hmem hmin hlt
      simp only [List.foldl_cons]
      by_cases hkv : kv = e₀
      · subst hkv
        rw [if_pos hlt]
        apply ImageCache.evictFold_stable
        intro kv' h'
        by_cases h2 : kv' = kv
        · subst h2
          exact lt_irrefl _
        · exact not_lt.mpr (le_of_lt (hmin kv' (by simp [h']) h2))
      · have hmem' : e₀ ∈ rest := by
          rcases List.mem_cons.mp hmem with he | he
          · exact absurd he.symm hkv
          · exact he
        have hmin' : ∀ kv' ∈ rest, kv' ≠ e₀ → e₀.2.timestamp < kv'.2.timestamp :=
          fun kv' h' => hmin kv' (by simp [h'])
        have hkvts : e₀.2.timestamp < kv.2.timestamp := hmin kv (by simp) hkv
        by_cases hc : kv.2.timestamp < acc.2
        · rw [if_pos hc]
          exact ih _ hmem' hmin' hkvts
        · rw [if_neg hc]
          exact ih _ hmem' hmin' hlt

/-- `evict_lru`'s scan returns the unique oldest entry (strictly older than
`now` and than every other entry). -/
theorem ImageCache.evictKey_eq_min {κ : Type} [DecidableEq κ]
    (entries : List (κ × CachedImage)) (now : ℕ) (e₀ : κ × CachedImage)
    (hmem : e₀ ∈ entries)
    (hmin : ∀ kv ∈ entries, kv ≠ e₀ → e₀.2.timestamp < kv.2.timestamp)
    (hnow : e₀.2.timestamp < now) :
    ImageCache.evictKey entries now = some e₀.1 := by
  unfold ImageCache.evictKey
  rw [ImageCache.evictFold_min e₀ entries ((none : Option κ), now) hmem hmin hnow]

/-- The scan produces a key as soon as any entry beats the accumulator. -/
theorem ImageCache.evictFold_progress {κ : Type} :
    ∀ (l : List (κ × CachedImage)) (acc : Option κ × ℕ),
      ((∃ kv ∈ l, kv.2.timestamp < acc.2) ∨ acc.1.isSome) →
      (l.foldl
        (fun acc kv =>
          if kv.2.timestamp < acc.2 then (some kv.1, kv.2.timestamp) else acc)
        acc).1.isSome := by
  intro l
  induction l with
  | nil =>
      intro acc h
      rcases h with ⟨kv, hkv, _⟩ | h
      · exact absurd hkv (List.not_mem_nil _)
      · exact h
  | cons kv rest ih =>
      intro acc h
      simp only [List.foldl_cons]
      by_cases hc : kv.2.timestamp < acc.2
      · rw [if_pos hc]
        exact ih _ (Or.inr rfl)
      · rw [if_neg hc]
        apply ih
        rcases h with ⟨kv', hkv', hlt⟩ | h
        · rcases List.mem_cons.mp hkv' with he | he
          · exact absurd (he ▸ hlt) hc
          · exact Or.inl ⟨kv', he, hlt⟩
        · exact Or.inr h

/-- Any key the scan returns is the key of some entry. -/
theorem ImageCache.evictFold_mem {κ : Type} :
    ∀ (l : List (κ × CachedImage)) (acc : Option κ × ℕ) (j : κ),
      (l.foldl
        (fun acc kv =>
          if kv.2.timestamp < acc.2 then (some kv.1, kv.2.timestamp) else acc)
        acc).1 = some j →
      acc.1 = some j ∨ j ∈ l.map Prod.fst := by
  intro l
  induction l with
  | nil =>
      intro acc j h
      exact Or.inl h
  | cons kv rest ih =>
      intro acc j h
      simp only [List.foldl_cons] at h
      by_cases hc : kv.2.timestamp < acc.2
      · rw [if_pos hc] at h
        rcases ih _ j h with h' | h'
        · have hkj : kv.1 = j := Option.some.inj h'
          exact Or.inr (by simp [← hkj])
        · exact Or.inr (by simp [h'])
      · rw [if_neg hc] at h
        rcases ih _ j h with h' | h'
        · exact Or.inl h'
        · exact Or.inr (by simp [h'])

/-- Removing one present key by the filter of `evict_lru` / `HashMap::remove`
shortens a duplicate-free store by exactly one entry. -/
theorem filter_ne_key_length {κ β : Type} [DecidableEq κ] :
    ∀ (l : List (κ × β)) (e₀ : κ × β), (l.map Prod.fst).Nodup → e₀ ∈ l →
      (l.filter fun kv => decide (kv.1 ≠ e₀.1)).length + 1 = l.length := by
  intro l
  induction l with
  | nil =>
      intro e₀ _ hmem
      exact absurd hmem (List.not_mem_nil _)
  | cons kv rest ih =>
      intro e₀ hnodup hmem
      have hnodup' : (rest.map Prod.fst).Nodup := (List.nodup_cons.mp hnodup).2
      have hhead : kv.1 ∉ rest.map Prod.fst := (List.nodup_cons.mp hnodup).1
      by_cases hk : kv.1 = e₀.1
      · have hrest : ∀ kv' ∈ rest, kv'.1 ≠ e₀.1 := by
          intro kv' h' heq
          exact hhead (hk ▸ heq ▸ List.mem_map_of_mem Prod.fst h')
        rw [List.filter_cons, if_neg (by simp [hk])]
        rw [List.filter_eq_self.mpr fun kv' h' => by simp [hrest kv' h']]
        rfl
      · have hmem' : e₀ ∈ rest := by
          rcases List.mem_cons.mp hmem with he | he
          · exact absurd (congrArg Prod.fst he.symm) hk
          · exact he
        rw [List.filter_cons, if_pos (by simp [hk])]
        rw [List.length_cons, ih e₀ hnodup' hmem']
        rfl

/-- After filtering a key out, looking it up fails. -/
theorem filter_ne_key_lookup_self {κ β : Type} [DecidableEq κ]
    (l : List (κ × β)) (j : κ) :
    (l.filter fun kv => decide (kv.1 ≠ j)).lookup j = none := by
  rw [List.lookup_eq_none_iff]
  intro p hp
  have hne : p.1 ≠ j := by simpa using (List.mem_filter.mp hp).2
  simp [bne_iff_ne, Ne.symm hne]

/-- A lookup skips a prefix that does not hold the key. -/
theorem lookup_append_of_not_left {κ β : Type} [DecidableEq κ]
    (l₁ l₂ : List (κ × β)) (k : κ) (h : ∀ kv ∈ l₁, kv.1 ≠ k) :
    (l₁ ++ l₂).lookup k = l₂.lookup k := by
  induction l₁ with
  | nil => rfl
  | cons kv rest ih =>
      rw [List.cons_append, List.lookup_cons]
      rw [beq_false_of_ne (Ne.symm (h kv (by simp)))]
      exact ih fun kv' h' => h kv' (by simp [h'])

/-- A present key's lookup succeeds. -/
theorem lookup_isSome_of_mem {κ β : Type} [DecidableEq κ]
    (l : List (κ × β)) (kv : κ × β) (hmem : kv ∈ l) :
    (l.lookup kv.1).isSome = true := by
  rw [← Option.ne_none_iff_isSome]
  intro hnone
  have := (List.lookup_eq_none_iff.mp hnone) kv hmem
  simp at this

/-- Filtering out a present element that fails the predicate strictly
shortens the list. -/
theorem length_filter_lt_of_mem {α : Type} (p : α → Bool) :
    ∀ (l : List α) (a : α), a ∈ l → p a = false →
      (l.filter p).length < l.length := by
  intro l
  induction l with
  | nil =>
      intro a h
      exact fun _ => absurd h (List.not_mem_nil _)
  | cons x rest ih =>
      intro a hmem hpa
      rcases List.mem_cons.mp hmem with he | he
      · subst he
        simp only [List.filter_cons, hpa, List.length_cons]
        exact Nat.lt_succ_of_le (List.length_filter_le p rest)
      · cases hx : p x
        · simp only [List.filter_cons, hx, List.length_cons]
          exact Nat.lt_succ_of_lt (ih a he hpa)
        · simp only [List.filter_cons, hx, if_true, List.length_cons]
          exact Nat.succ_lt_succ (ih a he hpa)

/-- At a busy instant (some entry strictly older than `now`), `evict_lru`
strictly shrinks the store. -/
theorem ImageCache.evict_lru_length_lt {κ : Type} [DecidableEq κ]
    (entries : List (κ × CachedImage)) (now : ℕ)
    (h : ∃ kv ∈ entries, kv.2.timestamp < now) :
    (ImageCache.evict_lru entries now).length < entries.length := by
  obtain ⟨kv₀, hkv₀, hlt⟩ := h
  have hsome : (ImageCache.evictKey entries now).isSome = true := by
    unfold ImageCache.evictKey
    exact ImageCache.evictFold_progress entries (none, now) (Or.inl ⟨kv₀, hkv₀, hlt⟩)
  obtain ⟨j, hj⟩ := Option.isSome_iff_exists.mp hsome
  have hjmem : j ∈ entries.map Prod.fst := by
    have hm := ImageCache.evictFold_mem entries (none, now) j
      (by unfold ImageCache.evictKey at hj; exact hj)
    rcases hm with h' | h'
    · exact absurd h' (by simp)
    · exact h'
  obtain ⟨kv₁, hkv₁, hkeq⟩ := List.mem_map.mp hjmem
  unfold ImageCache.evict_lru
  rw [hj]
  exact length_filter_lt_of_mem _ entries kv₁ hkv₁ (by simp [hkeq])

/-- Entries surviving `evict_lru` were already present. -/
theorem ImageCache.evict_lru_subset {κ : Type} [DecidableEq κ]
    (entries : List (κ × CachedImage)) (now : ℕ) :
    ∀ kv ∈ ImageCache.evict_lru entries now, kv ∈ entries := by
  intro kv h
  unfold ImageCache.evict_lru at h
  cases hE : ImageCache.evictKey entries now
  · rw [hE] at h
    exact h
  · rw [hE] at h
    exact (List.mem_filter.mp h).1

/-! ## C5 — `put` at capacity evicts exactly the LRU entry -/

/-- **C5.**  On a duplicate-free cache holding exactly `max_size` entries
whose timestamps are all older than `now` and whose oldest entry `e₀` is
unique, `put(key, image)` with a fresh key first evicts exactly `e₀` and
then inserts: afterwards the size is again `max_size`, a `get`/lookup on the
evicted key is absent, `get` on the inserted key returns the inserted image,
and every other previously present key is still present. -/
theorem C5_put_evicts_lru {κ : Type} [DecidableEq κ] (c : ImageCache κ)
    (k : κ) (img now : ℕ) (e₀ : κ × CachedImage)
    (hfull : c.entries.length = c.maxSize) (hmax : 1 ≤ c.maxSize)
    (hnodup : c.keys.Nodup) (hmem : e₀ ∈ c.entries)
    (hmin : ∀ kv ∈ c.entries, kv ≠ e₀ → e₀.2.timestamp < kv.2.timestamp)
    (hnow : ∀ kv ∈ c.entries, kv.2.timestamp < now)
    (hfresh : k ∉ c.keys) :
    (c.put k img now).entries.length = c.maxSize ∧
    (c.put k img now).find? e₀.1 = none ∧
    (∀ m, ((c.put k img now).get k m).1 = some img) ∧
    (∀ kv ∈ c.entries, kv ≠ e₀ → ((c.put k img now).find? kv.1).isSome = true) := by
  have hevict : ImageCache.evictKey c.entries now = some e₀.1 :=
    ImageCache.evictKey_eq_min c.entries now e₀ hmem hmin (hnow e₀ hmem)
  have hlru : ImageCache.evict_lru c.entries now =
      c.entries.filter fun kv => decide (kv.1 ≠ e₀.1) := by
    unfold ImageCache.evict_lru
    rw [hevict]
  have hforall : ∀ kv ∈ c.entries, kv.1 ≠ k := by
    intro kv hkv heq
    exact hfresh (heq ▸ List.mem_map_of_mem Prod.fst hkv)
  have hfiltered_sub : ∀ kv, kv ∈ (c.entries.filter fun kv => decide (kv.1 ≠ e₀.1)) →
      kv ∈ c.entries := fun kv h => (List.mem_filter.mp h).1
  have hput : (c.put k img now).entries =
      (c.entries.filter fun kv => decide (kv.1 ≠ e₀.1)) ++
        [(k, { image := img, timestamp := now, accessCount := 1 })] := by
    show ((if c.maxSize ≤ c.entries.length then
        ImageCache.evict_lru c.entries now
      else c.entries).filter fun kv => decide (kv.1 ≠ k)) ++
        [(k, { image := img, timestamp := now, accessCount := 1 })] = _
    rw [if_pos (le_of_eq hfull.symm), hlru]
    congr 1
    apply List.filter_eq_self.mpr
    intro kv h
    simp [hforall kv (hfiltered_sub kv h)]
  refine ⟨?_, ?_, ?_, ?_⟩
  · rw [hput, List.length_append]
    have := filter_ne_key_length c.entries e₀ hnodup hmem
    simp only [List.length_cons, List.length_nil]
    omega
  · unfold ImageCache.find?
    rw [hput]
    rw [lookup_append_of_not_left _ _ _
      (fun kv h => by simpa using (List.mem_filter.mp h).2)]
    rw [List.lookup_cons]
    have hke : e₀.1 ≠ k := hforall e₀ hmem
    rw [beq_false_of_ne hke]
    rfl
  · intro m
    unfold ImageCache.get
    have hlook : (c.put k img now).entries.lookup k =
        some { image := img, timestamp := now, accessCount := 1 } := by
      rw [hput]
      rw [lookup_append_of_not_left _ _ _
        (fun kv h => hforall kv (hfiltered_sub kv h))]
      rw [List.lookup_cons]
      simp
    rw [hlook]
  · intro kv hkv hne
    have hkey : kv.1 ≠ e₀.1 := by
      intro heq
      exact hne (List.inj_on_of_nodup_map hnodup hkv hmem heq)
    have hinf : kv ∈ (c.put k img now).entries := by
      rw [hput]
      exact List.mem_append_left _ (List.mem_filter.mpr ⟨hkv, by simp [hkey]⟩)
    exact lookup_isSome_of_mem _ kv hinf

/-- **C5 witness**: a two-entry cache at capacity `2`; putting a third key
at time `10` evicts exactly the older entry (timestamp `1`). -/
theorem C5_witness :
    (((ImageCache.new 2 : ImageCache ℕ).put 100 7 1).put 101 8 2).entries.length = 2 ∧
    ((((ImageCache.new 2 : ImageCache ℕ).put 100 7 1).put 101 8 2).put 102 9 10).entries.length = 2 ∧
    ((((ImageCache.new 2 : ImageCache ℕ).put 100 7 1).put 101 8 2).put 102 9 10).find? 100 = none ∧
    (((((ImageCache.new 2 : ImageCache ℕ).put 100 7 1).put 101 8 2).put 102 9 10).get 102 11).1 = some 9 := by
  have h := C5_put_evicts_lru (((ImageCache.new 2 : ImageCache ℕ).put 100 7 1).put 101 8 2)
    102 9 10 (100, { image := 7, timestamp := 1, accessCount := 1 })
    (by decide) (by decide) (by decide) (by decide) (by decide) (by decide) (by decide)
  exact ⟨by decide, h.1, h.2.1, h.2.2.1 11⟩

/-! ## C10 — the size bound over operation sequences -/

/-- **C10 counterexample.**  Two `put`s of distinct keys observing the same
`Instant::now()` value (Rust's `Instant` is monotone but not strictly so)
drive a capacity-1 cache to two entries: at capacity, `evict_lru` only evicts
an entry whose timestamp is *strictly* older than `now`, so nothing is
evicted and the insert exceeds the bound. -/
theorem C10_counterexample :
    (CacheOp.run (ImageCache.new 1 : ImageCache ℕ)
      [(CacheOp.put 0 7, 0), (CacheOp.put 1 8, 0)]).size = 2 := by
  decide

/-- One timed operation keeps the bound when every stored timestamp is
strictly older than the operation's instant. -/
theorem CacheOp.apply_bound {κ : Type} [DecidableEq κ] (c : ImageCache κ)
    (op : CacheOp κ × ℕ) (hmax : 1 ≤ c.maxSize)
    (hlen : c.entries.length ≤ c.maxSize)
    (hts : ∀ kv ∈ c.entries, kv.2.timestamp < op.2) :
    (CacheOp.apply c op).maxSize = c.maxSize ∧
    (CacheOp.apply c op).entries.length ≤ c.maxSize ∧
    (∀ kv ∈ (CacheOp.apply c op).entries, kv.2.timestamp ≤ op.2) := by
  obtain ⟨o, t⟩ := op
  cases o with
  | get k =>
      simp only [CacheOp.apply]
      unfold ImageCache.get
      cases hl : c.entries.lookup k
      · exact ⟨rfl, hlen, fun kv h => le_of_lt (hts kv h)⟩
      · refine ⟨rfl, by simpa using hlen, ?_⟩
        intro kv hkv
        simp only [List.mem_map] at hkv
        obtain ⟨kv', hkv', heq⟩ := hkv
        by_cases hk : kv'.1 = k
        · rw [← heq]
          simp [hk]
        · rw [← heq]
          simp only [hk, if_false]
          exact le_of_lt (hts kv' hkv')
  | put k img =>
      simp only [CacheOp.apply]
      have hput : (c.put k img t).entries =
          ((if c.maxSize ≤ c.entries.length then
              ImageCache.evict_lru c.entries t
            else c.entries).filter fun kv => decide (kv.1 ≠ k)) ++
            [(k, { image := img, timestamp := t, accessCount := 1 })] := rfl
      have hsubset : ∀ kv ∈ (if c.maxSize ≤ c.entries.length then
          ImageCache.evict_lru c.entries t else c.entries), kv ∈ c.entries := by
        intro kv h
        split at h
        · exact ImageCache.evict_lru_subset c.entries t kv h
        · exact h
      refine ⟨rfl, ?_, ?_⟩
      · rw [hput, List.length_append]
        have hfil : ((if c.maxSize ≤ c.entries.length then
            ImageCache.evict_lru c.entries t else c.entries).filter
              fun kv => decide (kv.1 ≠ k)).length ≤
            (if c.maxSize ≤ c.entries.length then
              ImageCache.evict_lru c.entries t else c.entries).length :=
          List.length_filter_le _ _
        by_cases hfull : c.maxSize ≤ c.entries.length
        · have hlen' : c.entries.length = c.maxSize := le_antisymm hlen hfull
          have hne : c.entries ≠ [] := by
            intro h0
            rw [h0] at hlen'
            simp at hlen'
            omega
          obtain ⟨kv₀, hkv₀⟩ := List.exists_mem_of_ne_nil c.entries hne
          have hlt := ImageCache.evict_lru_length_lt c.entries t
            ⟨kv₀, hkv₀, hts kv₀ hkv₀⟩
          rw [if_pos hfull] at hfil ⊢
          simp only [List.length_cons, List.length_nil]
          omega
        · rw [if_neg hfull] at hfil ⊢
          simp only [List.length_cons, List.length_nil]
          omega
      · intro kv hkv
        rw [hput] at hkv
        rcases List.mem_append.mp hkv with h' | h'
        · exact le_of_lt (hts kv (hsubset kv (List.mem_filter.mp h').1))
        · rcases List.mem_cons.mp h' with he | he
          · rw [he]
          · exact absurd he (List.not_mem_nil _)
  | remove k =>
      simp only [CacheOp.apply]
      unfold ImageCache.remove
      refine ⟨rfl, le_trans (List.length_filter_le _ _) hlen, ?_⟩
      intro kv hkv
      exact le_of_lt (hts kv ((List.mem_filter.mp hkv).1))
  | clear =>
      simp only [CacheOp.apply]
      exact ⟨rfl, by simp [ImageCache.clear], by simp [ImageCache.clear]⟩

/-- The size bound carried along a run whose instants strictly increase and
start after every stored timestamp. -/
theorem CacheOp.run_bound_aux {κ : Type} [DecidableEq κ] :
    ∀ (ops : List (CacheOp κ × ℕ)) (c : ImageCache κ),
      1 ≤ c.maxSize → c.entries.length ≤ c.maxSize →
      ops.Chain' (fun a b => a.2 < b.2) →
      (∀ kv ∈ c.entries, ∀ hd ∈ ops.head?, kv.2.timestamp < hd.2) →
      ∀ n, (CacheOp.run c (ops.take n)).size ≤ c.maxSize := by
  intro ops
  induction ops with
  | nil =>
      intro c h1 h2 _ _ n
      simpa [CacheOp.run, ImageCache.size] using h2
  | cons op rest ih =>
      intro c h1 h2 hchain hts n
      cases n with
      | zero => simpa [CacheOp.run, ImageCache.size] using h2
      | succ m =>
          rw [List.take_succ_cons]
          show (CacheOp.run (CacheOp.apply c op) (rest.take m)).size ≤ c.maxSize
          have hb := CacheOp.apply_bound c op h1 h2
            (fun kv h => hts kv h op rfl)
          have hcc := List.chain'_cons'.mp hchain
          have hrec := ih (CacheOp.apply c op) (hb.1 ▸ h1) (hb.1 ▸ hb.2.1) hcc.2
            (fun kv hkv hd hhd =>
              lt_of_le_of_lt (hb.2.2 kv hkv) (hcc.1 hd hhd))
          exact hb.1 ▸ hrec m

/-- **C10** (amended): starting from an empty `ImageCache` with
`max_size ≥ 1`, any sequence of `get`/`put`/`remove`/`clear` operations
whose observed `Instant::now()` values are strictly increasing keeps the
entry count at or below `max_size` after every prefix.  (Strictness is
needed: the counterexample shows two puts at one instant break the bound.) -/
theorem C10_amended {κ : Type} [DecidableEq κ] (max : ℕ) (hmax : 1 ≤ max)
    (ops : List (CacheOp κ × ℕ))
    (hchain : ops.Chain' (fun a b => a.2 < b.2)) :
    ∀ n, (CacheOp.run (ImageCache.new max) (ops.take n)).size ≤ max := by
  have h := CacheOp.run_bound_aux ops (ImageCache.new max) hmax
    (by simp [ImageCache.new]) hchain
    (by intro kv hkv hd hhd; simp [ImageCache.new] at hkv)
  exact h

/-- **C10 witness**: a three-operation run at strictly increasing instants
on a capacity-1 cache stays within the bound. -/
theorem C10_witness :
    (CacheOp.run (ImageCache.new 1 : ImageCache ℕ)
      ([(CacheOp.put 0 7, 0), (CacheOp.put 1 8, 1), (CacheOp.get 1, 2)].take 3)).size ≤ 1 :=
  C10_amended 1 (by decide)
    [(CacheOp.put 0 7, 0), (CacheOp.put 1 8, 1), (CacheOp.get 1, 2)]
    (by simp [List.chain'_cons]) 3

/-! ## C9 — `update_view_size` no-op condition -/

/-- **C9 counterexample.**  The claim says `update_view_size` with
`force = false` is a no-op if and only if width, height and zoom all equal
the stored values.  The source compares zoom with a `0.001` tolerance: a
zoom of `2001/2000` against a stored zoom of `1` differs, yet the call
returns the state unchanged. -/
theorem C9_counterexample :
    toleranceState.update_view_size 100 100 (2001/2000) false = toleranceState ∧
    toleranceState.zoom ≠ 2001/2000 ∧
    toleranceState.viewSize = (100, 100) := by
  decide

/-- **C9** (amended): with `force = false`, `update_view_size` is a no-op
if and only if the width and height equal the stored view size and the zoom
is within the source's `0.001` tolerance of the stored zoom; whenever the
size changed or the zoom moved beyond the tolerance, the new values are
stored and the layout is recomputed. -/
theorem C9_amended (s : ViewState) (w h z : ℚ) :
    (s.update_view_size w h z false = s ↔
      s.viewSize.1 = w ∧ s.viewSize.2 = h ∧ |s.zoom - z| ≤ 1/1000) ∧
    ((s.viewSize.1 ≠ w ∨ s.viewSize.2 ≠ h ∨ 1/1000 < |s.zoom - z|) →
      (s.update_view_size w h z false).viewSize = (w, h) ∧
      (s.update_view_size w h z false).zoom = z ∧
      s.update_view_size w h z false =
        ViewState.recalculate_layout { s with viewSize := (w, h), zoom := z }) := by
  by_cases hcond : s.viewSize.1 = w ∧ s.viewSize.2 = h ∧ |s.zoom - z| ≤ 1/1000
  · have heq : s.update_view_size w h z false = s := by
      simp only [ViewState.update_view_size]
      rw [if_pos]
      refine ⟨?_, not_lt.mpr hcond.2.2, by trivial⟩
      rw [not_or]
      exact ⟨not_not_intro hcond.1, not_not_intro hcond.2.1⟩
    refine ⟨⟨fun _ => hcond, fun _ => heq⟩, fun hne => ?_⟩
    rcases hne with hne | hne | hne
    · exact absurd hcond.1 hne
    · exact absurd hcond.2.1 hne
    · exact absurd hcond.2.2 (not_le.mpr hne)
  · have hres : s.update_view_size w h z false =
        ViewState.recalculate_layout { s with viewSize := (w, h), zoom := z } := by
      simp only [ViewState.update_view_size]
      rw [if_neg]
      intro hc
      rcases hc with ⟨h1, h2, _⟩
      rw [not_or] at h1
      exact hcond ⟨not_not.mp h1.1, not_not.mp h1.2, not_lt.mp h2⟩
    have hvs : (s.update_view_size w h z false).viewSize = (w, h) := by
      rw [hres]
      exact ViewState.recalculate_layout_viewSize _
    have hzz : (s.update_view_size w h z false).zoom = z := by
      rw [hres]
      exact ViewState.recalculate_layout_zoom _
    constructor
    · constructor
      · intro heq
        exfalso
        apply hcond
        have h1 : s.viewSize = (w, h) := by rw [← heq]; exact hvs
        have h2 : s.zoom = z := by rw [← heq]; exact hzz
        refine ⟨by rw [h1], by rw [h1], ?_⟩
        rw [h2, sub_self, abs_zero]
        norm_num
      · intro hc
        exact absurd hc hcond
    · exact fun _ => ⟨hvs, hzz, hres⟩

/-- **C9 witness**: the amended no-op direction evaluated on the concrete
state (zoom within tolerance). -/
theorem C9_witness :
    toleranceState.update_view_size 100 100 1 false = toleranceState :=
  (C9_amended toleranceState 100 100 1).1.mpr (by decide)

/-! ## C7 — `jump_to_page` -/

/-- **C7.**  `jump_to_page(i)` with `i` out of range returns nothing and
leaves the state (in particular the view offset) unchanged; in range it
returns and applies the offset aligning page `i`'s leading edge with the
viewport origin: `(old_x, -bounds.top)` vertically, `(-bounds.left, old_y)`
horizontally. -/
theorem C7_jump_to_page (s : ViewState) (i : ℕ) :
    (s.pages.length ≤ i → s.jump_to_page i = (none, s)) ∧
    (∀ h : i < s.pages.length,
      s.jump_to_page i =
        (match s.orientation with
          | .vertical => (some (s.viewOffset.1, -(s.pages.get ⟨i, h⟩).bounds.top),
              { s with viewOffset := (s.viewOffset.1, -(s.pages.get ⟨i, h⟩).bounds.top) })
          | .horizontal => (some (-(s.pages.get ⟨i, h⟩).bounds.left, s.viewOffset.2),
              { s with viewOffset := (-(s.pages.get ⟨i, h⟩).bounds.left, s.viewOffset.2) }))) := by
  constructor
  · intro hle
    unfold ViewState.jump_to_page
    rw [dif_neg (by omega)]
  · intro h
    unfold ViewState.jump_to_page
    rw [dif_pos h]
    cases s.orientation <;> rfl

/-- **C7 witness**: out-of-range index `5` on a one-page state returns
nothing; index `0` aligns page 0's top (`5`) with the viewport origin. -/
theorem C7_witness :
    spuriousState.jump_to_page 5 = (none, spuriousState) ∧
    spuriousState.jump_to_page 0 =
      (some (0, -5), { spuriousState with viewOffset := (0, -5) }) := by
  constructor
  · exact (C7_jump_to_page spuriousState 5).1 (by decide)
  · have h := (C7_jump_to_page spuriousState 0).2 (by decide)
    rw [h]
    decide

/-! ## Decode-worker queue lemmas -/

/-- De-duplicating enqueue never grows the multiplicity of a key that is
already queued. -/
theorem enqueue_count_stable (k : ThumbKey) :
    ∀ (b q : List RenderPage),
      1 ≤ (q.map fun r => r.key).count k →
      ((enqueueRenderPages b q).map fun r => r.key).count k =
        (q.map fun r => r.key).count k := by
  intro b
  induction b with
  | nil => intro q _; rfl
  | cons p rest ih =>
      intro q hq
      show ((enqueueRenderPages rest
        (if q.any fun p' => decide (p'.key = p.key) then q else q ++ [p])).map
          fun r => r.key).count k = _
      by_cases hany : (q.any fun p' => decide (p'.key = p.key)) = true
      · rw [if_pos hany]
        exact ih q hq
      · rw [if_neg hany]
        have hne : p.key ≠ k := by
          intro hk
          apply hany
          have hmem : k ∈ q.map fun r => r.key :=
            List.count_pos_iff.mp (by omega)
          obtain ⟨r, hr, hrk⟩ := List.mem_map.mp hmem
          exact List.any_eq_true.mpr ⟨r, hr, by simp [hrk, hk]⟩
        have hcount : ((q ++ [p]).map fun r => r.key).count k =
            (q.map fun r => r.key).count k := by
          rw [List.map_append, List.count_append]
          simp [List.count_cons, hne]
        calc ((enqueueRenderPages rest (q ++ [p])).map fun r => r.key).count k
            = ((q ++ [p]).map fun r => r.key).count k :=
              ih (q ++ [p]) (by rw [hcount]; exact hq)
          _ = (q.map fun r => r.key).count k := hcount

/-- De-duplicating enqueue of a batch holding a fresh key queues it exactly
once. -/
theorem enqueue_count_new (k : ThumbKey) :
    ∀ (b q : List RenderPage),
      (q.map fun r => r.key).count k = 0 →
      (∃ r ∈ b, r.key = k) →
      ((enqueueRenderPages b q).map fun r => r.key).count k = 1 := by
  intro b
  induction b with
  | nil =>
      intro q _ hex
      obtain ⟨r, hr, _⟩ := hex
      exact absurd hr (List.not_mem_nil _)
  | cons p rest ih =>
      intro q hq hex
      show ((enqueueRenderPages rest
        (if q.any fun p' => decide (p'.key = p.key) then q else q ++ [p])).map
          fun r => r.key).count k = 1
      by_cases hpk : p.key = k
      · have hany : ¬ (q.any fun p' => decide (p'.key = p.key)) = true := by
          intro hany
          obtain ⟨r, hr, hrk⟩ := List.any_eq_true.mp hany
          have hrk' : r.key = k := by
            rw [of_decide_eq_true hrk, hpk]
          have hmem : k ∈ q.map fun r => r.key :=
            hrk' ▸ List.mem_map_of_mem (fun r => r.key) hr
          have hpos := List.count_pos_iff.mpr hmem
          omega
        rw [if_neg hany]
        have hcount1 : ((q ++ [p]).map fun r => r.key).count k = 1 := by
          rw [List.map_append, List.count_append, hq]
          simp [List.count_cons, hpk]
        rw [enqueue_count_stable k rest (q ++ [p]) (by rw [hcount1])]
        exact hcount1
      · have hex' : ∃ r ∈ rest, r.key = k := by
          obtain ⟨r, hr, hrk⟩ := hex
          rcases List.mem_cons.mp hr with he | he
          · exact absurd (he ▸ hrk) hpk
          · exact ⟨r, he, hrk⟩
        by_cases hany : (q.any fun p' => decide (p'.key = p.key)) = true
        · rw [if_pos hany]
          exact ih q hq hex'
        · rw [if_neg hany]
          apply ih (q ++ [p]) _ hex'
          rw [List.map_append, List.count_append, hq]
          simp [List.count_cons, hpk]

/-- De-duplicating enqueue preserves distinctness of the queued keys. -/
theorem enqueue_nodup :
    ∀ (b q : List RenderPage),
      ((q.map fun r => r.key).Nodup) →
      (((enqueueRenderPages b q).map fun r => r.key).Nodup) := by
  intro b
  induction b with
  | nil => exact fun q h => h
  | cons p rest ih =>
      intro q hq
      show (((enqueueRenderPages rest
        (if q.any fun p' => decide (p'.key = p.key) then q else q ++ [p])).map
          fun r => r.key).Nodup)
      by_cases hany : (q.any fun p' => decide (p'.key = p.key)) = true
      · rw [if_pos hany]
        exact ih q hq
      · rw [if_neg hany]
        apply ih
        rw [List.map_append]
        rw [List.nodup_append]
        refine ⟨hq, List.nodup_singleton _, ?_⟩
        intro a ha hb
        simp only [List.map_cons, List.map_nil, List.mem_singleton] at hb
        obtain ⟨r, hr, hrk⟩ := List.mem_map.mp ha
        apply hany
        exact List.any_eq_true.mpr ⟨r, hr, by simp [hrk, hb]⟩

/-- **C3's invariant over arbitrary event sequences**: from the initial
empty worker state, the queue never holds two requests with the same key. -/
theorem runWorker_queue_nodup_aux (dec : Option Decoder) :
    ∀ (events : List WorkerEvent) (st : WorkerState),
      ((st.queue.map fun r => r.key).Nodup) →
      (((events.foldl (applyWorkerEvent dec) st).queue.map fun r => r.key).Nodup) := by
  intro events
  induction events with
  | nil => exact fun st h => h
  | cons e rest ih =>
      intro st hst
      rw [List.foldl_cons]
      apply ih
      cases e with
      | renderPages pages => exact enqueue_nodup pages st.queue hst
      | step =>
          show ((((processOne dec st).1).queue.map fun r => r.key).Nodup)
          cases hq : st.queue with
          | nil =>
              unfold processOne
              rw [hq]
              exact hst
          | cons r rest' =>
              unfold processOne
              rw [hq]
              rw [hq] at hst
              exact (List.nodup_cons.mp hst).2

/-- A request failing the visibility re-check is dropped: nothing is
emitted, nothing is executed, no error occurs. -/
theorem processRequest_invisible (dec : Option Decoder) (cv : List RenderPage)
    (r : RenderPage) (h : requestVisible cv r = false) :
    processRequest dec cv r = ([], [], []) := by
  unfold processRequest
  rw [if_neg (by simp [h])]

/-- Without a loaded document, a popped request produces nothing. -/
theorem processRequest_no_decoder (cv : List RenderPage) (r : RenderPage) :
    processRequest none cv r = ([], [], []) := by
  unfold processRequest
  split
  · rfl
  · rfl

/-- A visible request whose decode fails is logged and dropped: the decode
executed, an error occurred, nothing is emitted. -/
theorem processRequest_visible_err (d : Decoder) (cv : List RenderPage)
    (r : RenderPage) (hv : requestVisible cv r = true)
    (hr : d.renderPage r.pageInfo (decide (r.crop ≠ 0)) = none) :
    processRequest (some d) cv r = ([], [r.key], [r.key]) := by
  unfold processRequest
  rw [if_pos hv]
  show (match d.renderPage r.pageInfo (decide (r.crop ≠ 0)) with
    | some (imageData, w, h) =>
        ([({ key := r.key
             pageInfo := r.pageInfo
             imageData := imageData
             imageWidth := w
             imageHeight := h
             links := (d.getPageLinks r.pageInfo.index).getD [] } : DecodeResult)],
          [r.key], ([] : List ThumbKey))
    | none => ([], [r.key], [r.key])) = _
  rw [hr]

/-- A visible request whose decode succeeds emits exactly one result with
the request's key. -/
theorem processRequest_visible_ok (d : Decoder) (cv : List RenderPage)
    (r : RenderPage) (px : List ℕ) (w ht : ℕ) (hv : requestVisible cv r = true)
    (hr : d.renderPage r.pageInfo (decide (r.crop ≠ 0)) = some (px, w, ht)) :
    processRequest (some d) cv r =
      ([{ key := r.key
          pageInfo := r.pageInfo
          imageData := px
          imageWidth := w
          imageHeight := ht
          links := (d.getPageLinks r.pageInfo.index).getD [] }], [r.key], []) := by
  unfold processRequest
  rw [if_pos hv]
  show (match d.renderPage r.pageInfo (decide (r.crop ≠ 0)) with
    | some (imageData, w, h) =>
        ([({ key := r.key
             pageInfo := r.pageInfo
             imageData := imageData
             imageWidth := w
             imageHeight := h
             links := (d.getPageLinks r.pageInfo.index).getD [] } : DecodeResult)],
          [r.key], ([] : List ThumbKey))
    | none => ([], [r.key], [r.key])) = _
  rw [hr]

/-- Emitted results only carry keys of queued requests. -/
theorem drainQueue_emitted_sub (dec : Option Decoder) (cv : List RenderPage) :
    ∀ (q : List RenderPage) (res : DecodeResult),
      res ∈ (drainQueue dec cv q).1 → res.key ∈ q.map fun r => r.key := by
  intro q
  induction q with
  | nil =>
      intro res h
      exact absurd h (List.not_mem_nil _)
  | cons r rest ih =>
      intro res h
      unfold drainQueue at h
      rcases List.mem_append.mp h with h' | h'
      · have hkey : res.key = r.key := by
          by_cases hv : requestVisible cv r = true
          · cases dec with
            | none =>
                rw [processRequest_no_decoder] at h'
                exact absurd h' (List.not_mem_nil _)
            | some d =>
                cases hr : d.renderPage r.pageInfo (decide (r.crop ≠ 0)) with
                | none =>
                    rw [processRequest_visible_err d cv r hv hr] at h'
                    exact absurd h' (List.not_mem_nil _)
                | some v =>
                    obtain ⟨px, w, ht⟩ := v
                    rw [processRequest_visible_ok d cv r px w ht hv hr] at h'
                    rcases List.mem_cons.mp h' with he | he
                    · rw [he]
                    · exact absurd he (List.not_mem_nil _)
          · rw [processRequest_invisible dec cv r
              (Bool.eq_false_iff.mpr hv)] at h'
            exact absurd h' (List.not_mem_nil _)
        rw [hkey]
        exact List.mem_cons_self _ _
      · exact List.mem_cons_of_mem _ (ih res h')

/-- With a loaded decoder, the keys whose decode is executed are exactly the
keys of the queued requests that pass the visibility re-check, in FIFO
order. -/
theorem drainQueue_executed (d : Decoder) (cv : List RenderPage) :
    ∀ q : List RenderPage,
      (drainQueue (some d) cv q).2.1 =
        (q.filter fun r => requestVisible cv r).map fun r => r.key := by
  intro q
  induction q with
  | nil => rfl
  | cons r rest ih =>
      unfold drainQueue
      rw [List.filter_cons]
      by_cases hv : requestVisible cv r = true
      · rw [if_pos (by simp [hv])]
        have hexec : (processRequest (some d) cv r).2.1 = [r.key] := by
          cases hr : d.renderPage r.pageInfo (decide (r.crop ≠ 0)) with
          | none => rw [processRequest_visible_err d cv r hv hr]
          | some v =>
              obtain ⟨px, w, ht⟩ := v
              rw [processRequest_visible_ok d cv r px w ht hv hr]
        show (processRequest (some d) cv r).2.1 ++ (drainQueue (some d) cv rest).2.1 = _
        rw [hexec, ih]
        rfl
      · rw [if_neg (by simp [hv])]
        show (processRequest (some d) cv r).2.1 ++ (drainQueue (some d) cv rest).2.1 = _
        rw [processRequest_invisible (some d) cv r (Bool.eq_false_iff.mpr hv), ih]
        rfl

/-- Counting a key among the executed (visibility-passing) requests equals
counting it in the queue, when every queued request with that key passes the
check. -/
theorem count_filter_keys (k : ThumbKey) (p : RenderPage → Bool) :
    ∀ q : List RenderPage,
      (∀ r ∈ q, r.key = k → p r = true) →
      (((q.filter p).map fun r => r.key).count k) =
        ((q.map fun r => r.key).count k) := by
  intro q
  induction q with
  | nil => intro _; rfl
  | cons r rest ih =>
      intro hp
      rw [List.filter_cons]
      by_cases hr : p r = true
      · rw [if_pos (by simp [hr])]
        simp only [List.map_cons, List.count_cons]
        rw [ih fun r' h' => hp r' (List.mem_cons_of_mem _ h')]
      · rw [if_neg (by simp [hr])]
        have hne : r.key ≠ k := fun hk => hr (hp r (List.mem_cons_self _ _) hk)
        simp only [List.map_cons, List.count_cons]
        rw [ih fun r' h' => hp r' (List.mem_cons_of_mem _ h')]
        simp [hne]

/-! ## C3 — de-duplication of queued render requests -/

/-- **C3.**  (1) Over every sequence of worker events from the initial
state, the task queue holds at most one queued-but-not-started request per
key (the queued keys are duplicate-free).  (2) If two `render_pages`
batches each containing a request with key `k` are enqueued before any
request with `k` is popped, the queue holds exactly one request with `k`;
running the queue with a loaded decoder then executes exactly one decode
for `k`, provided the `k`-request still passes its visibility re-check when
popped (an invisible request is skipped instead, per C4). -/
theorem C3_dedup :
    (∀ (dec : Option Decoder) (events : List WorkerEvent),
      (((runWorker dec events).queue.map fun r => r.key).Nodup)) ∧
    (∀ (st : WorkerState) (b1 b2 : List RenderPage) (k : ThumbKey),
      ((st.queue.map fun r => r.key).count k = 0) →
      (∃ r ∈ b1, r.key = k) → (∃ r ∈ b2, r.key = k) →
      (((handleRenderPages b2 (handleRenderPages b1 st)).queue.map
          fun r => r.key).count k = 1) ∧
      ∀ d : Decoder,
        (∀ r ∈ (handleRenderPages b2 (handleRenderPages b1 st)).queue,
          r.key = k →
            requestVisible
              (handleRenderPages b2 (handleRenderPages b1 st)).currentVisible r = true) →
        (((drainQueue (some d)
            (handleRenderPages b2 (handleRenderPages b1 st)).currentVisible
            (handleRenderPages b2 (handleRenderPages b1 st)).queue).2.1).count k = 1)) := by
  constructor
  · intro dec events
    exact runWorker_queue_nodup_aux dec events { queue := [], currentVisible := [] }
      (by simp)
  · intro st b1 b2 k h0 h1 h2
    have hq1 : (((handleRenderPages b1 st).queue.map fun r => r.key).count k = 1) :=
      enqueue_count_new k b1 st.queue h0 h1
    have hq2 : (((handleRenderPages b2 (handleRenderPages b1 st)).queue.map
        fun r => r.key).count k = 1) := by
      show (((enqueueRenderPages b2 (handleRenderPages b1 st).queue).map
        fun r => r.key).count k = 1)
      rw [enqueue_count_stable k b2 (handleRenderPages b1 st).queue (by rw [hq1])]
      exact hq1
    refine ⟨hq2, ?_⟩
    intro d hvis
    rw [drainQueue_executed]
    rw [count_filter_keys k _ _ hvis]
    exact hq2

/-- **C3 witness**: the same request batched twice from the empty state is
queued once, and draining the queue with a loaded decoder executes its
decode exactly once. -/
theorem C3_witness :
    (((handleRenderPages [exRenderPage] (handleRenderPages [exRenderPage]
        { queue := [], currentVisible := [] })).queue.map fun r => r.key).count
        ((0 : ℕ), (10 : ℚ), (5 : ℚ)) = 1) ∧
    (((drainQueue (some exDecoder)
        (handleRenderPages [exRenderPage] (handleRenderPages [exRenderPage]
          { queue := [], currentVisible := [] })).currentVisible
        (handleRenderPages [exRenderPage] (handleRenderPages [exRenderPage]
          { queue := [], currentVisible := [] })).queue).2.1).count
        ((0 : ℕ), (10 : ℚ), (5 : ℚ)) = 1) := by
  have hqueue : (handleRenderPages [exRenderPage] (handleRenderPages [exRenderPage]
      { queue := [], currentVisible := [] })).queue = [exRenderPage] := rfl
  have h := C3_dedup.2 { queue := [], currentVisible := [] }
    [exRenderPage] [exRenderPage] ((0 : ℕ), (10 : ℚ), (5 : ℚ)) rfl
    ⟨exRenderPage, by simp, rfl⟩ ⟨exRenderPage, by simp, rfl⟩
  refine ⟨h.1, h.2 exDecoder ?_⟩
  intro r hr _
  rw [hqueue] at hr
  rcases List.mem_cons.mp hr with he | he
  · subst he
    rfl
  · exact absurd he (List.not_mem_nil _)

/-! ## C4 — invisible requests are dropped without decoding -/

/-- **C4.**  When the worker pops a request whose visibility callback
reports the page no longer visible, the request is dropped: the state keeps
only the remaining queue (the worker continues with the next request),
nothing is emitted on the result channel, no decode is executed, and no
error is produced; moreover (with distinct queued keys, as C3 guarantees) no
`DecodeResult` with that request's key is ever emitted by draining the rest
of the queue. -/
theorem C4_invisible_skipped (dec : Option Decoder) (st : WorkerState)
    (r : RenderPage) (rest : List RenderPage) (c : VisibilityChecker)
    (hq : st.queue = r :: rest)
    (hc : r.visibilityChecker = some c) (hvis : c r.pageInfo.index = false) :
    (processOne dec st).1 = { st with queue := rest } ∧
    (processOne dec st).2 = ([], [], []) ∧
    ((((r :: rest).map fun x => x.key).Nodup) →
      ∀ res ∈ (drainQueue dec st.currentVisible (r :: rest)).1, res.key ≠ r.key) := by
  have hreq : requestVisible st.currentVisible r = false := by
    unfold requestVisible
    rw [hc]
    exact hvis
  refine ⟨?_, ?_, ?_⟩
  · unfold processOne
    rw [hq]
  · unfold processOne
    rw [hq]
    show processRequest dec st.currentVisible r = ([], [], [])
    exact processRequest_invisible dec st.currentVisible r hreq
  · intro hnodup res hres
    have hres' : res.key ∈ rest.map fun x => x.key := by
      unfold drainQueue at hres
      rw [processRequest_invisible dec st.currentVisible r hreq] at hres
      exact drainQueue_emitted_sub dec st.currentVisible rest res
        (by simpa using hres)
    intro hkey
    rw [hkey] at hres'
    exact (List.nodup_cons.mp hnodup).1 hres'

/-! ## C8 — no request for pages already cached -/

/-- `get_thumbnail`'s hit/miss answer coincides with plain key presence. -/
theorem ImageCache.get_fst_isSome {κ : Type} [DecidableEq κ] (c : ImageCache κ)
    (k : κ) (now : ℕ) : ((c.get k now).1).isSome = (c.find? k).isSome := by
  unfold ImageCache.get ImageCache.find?
  cases hl : c.entries.lookup k <;> rfl

/-- The visit loop of `update_visible_pages` visits every index in order and
builds a request exactly for the pages of positive scaled size whose
thumbnail key is **absent from the cache the loop started with** (the loop's
own `get` calls refresh LRU metadata but never change key presence). -/
theorem ViewState.visitPages_spec (pages : List Page) (crop : ℤ)
    (ch : VisibilityChecker) (now : ℕ) :
    ∀ (idxs : List ℕ) (cache : PageCache),
      (ViewState.visitPages cache pages crop ch now idxs).2.1 = idxs ∧
      (ViewState.visitPages cache pages crop ch now idxs).2.2 =
        (idxs.filter fun i =>
          decide (0 < (pages.getD i ViewState.defaultPage).width ∧
            0 < (pages.getD i ViewState.defaultPage).height) &&
          !((cache.thumbnailCache.find?
              (generate_thumbnail_key (pages.getD i ViewState.defaultPage))).isSome)).map
          fun i =>
            { key := generate_thumbnail_key (pages.getD i ViewState.defaultPage)
              pageInfo := (pages.getD i ViewState.defaultPage).info
              crop := crop
              priority := .thumbnail
              visibilityChecker := some ch } := by
  intro idxs
  induction idxs with
  | nil => exact fun cache => ⟨rfl, rfl⟩
  | cons i rest ih =>
      intro cache
      simp only [ViewState.visitPages]
      by_cases hpos : 0 < (pages.getD i ViewState.defaultPage).width ∧
          0 < (pages.getD i ViewState.defaultPage).height
      · rw [if_pos hpos]
        have hpres : ∀ k',
            (((cache.get_thumbnail
                (generate_thumbnail_key (pages.getD i ViewState.defaultPage)) now).2
              ).thumbnailCache.find? k').isSome =
            (cache.thumbnailCache.find? k').isSome := fun k' =>
          ImageCache.get_find?_isSome cache.thumbnailCache _ now k'
        have hfiltcongr : ∀ cache' : PageCache,
            (∀ k', (cache'.thumbnailCache.find? k').isSome =
              (cache.thumbnailCache.find? k').isSome) →
            (rest.filter fun i' =>
              decide (0 < (pages.getD i' ViewState.defaultPage).width ∧
                0 < (pages.getD i' ViewState.defaultPage).height) &&
              !((cache'.thumbnailCache.find?
                  (generate_thumbnail_key
                    (pages.getD i' ViewState.defaultPage))).isSome)) =
            (rest.filter fun i' =>
              decide (0 < (pages.getD i' ViewState.defaultPage).width ∧
                0 < (pages.getD i' ViewState.defaultPage).height) &&
              !((cache.thumbnailCache.find?
                  (generate_thumbnail_key
                    (pages.getD i' ViewState.defaultPage))).isSome)) := by
          intro cache' hsame
          apply List.filter_congr
          intro i' _
          rw [hsame]
        cases hh : (cache.get_thumbnail
            (generate_thumbnail_key (pages.getD i ViewState.defaultPage)) now).1 with
        | none =>
            have habsent : (cache.thumbnailCache.find?
                (generate_thumbnail_key (pages.getD i ViewState.defaultPage))).isSome =
                false := by
              rw [← ImageCache.get_fst_isSome cache.thumbnailCache _ now]
              show ((cache.get_thumbnail
                (generate_thumbnail_key (pages.getD i ViewState.defaultPage)) now).1
                  ).isSome = false
              rw [hh]
              rfl
            constructor
            · show i :: (ViewState.visitPages _ pages crop ch now rest).2.1 = i :: rest
              rw [(ih _).1]
            · show _ :: (ViewState.visitPages _ pages crop ch now rest).2.2 = _
              rw [(ih _).2]
              rw [hfiltcongr _ hpres]
              rw [List.filter_cons, if_pos (by
                rw [habsent]
                simp only [Bool.not_false, Bool.and_true, decide_eq_true_eq]
                exact hpos)]
              rfl
        | some img =>
            have hpresent : (cache.thumbnailCache.find?
                (generate_thumbnail_key (pages.getD i ViewState.defaultPage))).isSome =
                true := by
              rw [← ImageCache.get_fst_isSome cache.thumbnailCache _ now]
              show ((cache.get_thumbnail
                (generate_thumbnail_key (pages.getD i ViewState.defaultPage)) now).1
                  ).isSome = true
              rw [hh]
              rfl
            constructor
            · show i :: (ViewState.visitPages _ pages crop ch now rest).2.1 = i :: rest
              rw [(ih _).1]
            · show (ViewState.visitPages _ pages crop ch now rest).2.2 = _
              rw [(ih _).2]
              rw [hfiltcongr _ hpres]
              rw [List.filter_cons, if_neg (by
                rw [hpresent]
                simp only [Bool.not_true, Bool.and_false]
                exact Bool.false_ne_true)]
      · rw [if_neg hpos]
        constructor
        · show i :: (ViewState.visitPages cache pages crop ch now rest).2.1 = i :: rest
          rw [(ih cache).1]
        · show (ViewState.visitPages cache pages crop ch now rest).2.2 = _
          rw [(ih cache).2]
          rw [List.filter_cons, if_neg (by
            intro hand
            exact hpos (of_decide_eq_true ((Bool.and_eq_true _ _).mp hand).1))]

/-- **C8.**  During `update_visible_pages`, the batch handed to the decode
worker consists of a `RenderRequest` for exactly those pages of the computed
visible range that have positive scaled size and whose render key is absent
from the thumbnail cache; in particular no request is constructed for a
page whose key is already cached. -/
theorem C8_requests_iff_uncached (s : ViewState) (now : ℕ) :
    (s.update_visible_pages now).2 =
      (((s.update_visible_pages now).1.visiblePages).filter fun i =>
        decide (0 < (s.pages.getD i ViewState.defaultPage).width ∧
          0 < (s.pages.getD i ViewState.defaultPage).height) &&
        !((s.cache.thumbnailCache.find?
            (generate_thumbnail_key (s.pages.getD i ViewState.defaultPage))).isSome)).map
        fun i =>
          { key := generate_thumbnail_key (s.pages.getD i ViewState.defaultPage)
            pageInfo := (s.pages.getD i ViewState.defaultPage).info
            crop := s.crop
            priority := .thumbnail
            visibilityChecker := some (ViewState.mkVisibilityChecker s.orientation
              (ViewState.computeVisibleRect s)
              (s.pages.map fun p => (p.info.index, p.bounds))) } := by
  simp only [ViewState.update_visible_pages]
  rw [(ViewState.visitPages_spec s.pages s.crop _ now _ s.cache).1,
    (ViewState.visitPages_spec s.pages s.crop _ now _ s.cache).2]

/-! ## Binary-search lemmas for the Visibility Resolver -/

/-- Whatever `find_first_visible`'s loop returns is the default or an index
in `[low, high)` satisfying the predicate. -/
theorem ViewState.bsearchFirst_mem (pred : ℕ → Bool) :
    ∀ (fuel low high d : ℕ), high - low ≤ fuel →
      ViewState.bsearchFirst pred fuel low high d = d ∨
      (low ≤ ViewState.bsearchFirst pred fuel low high d ∧
        ViewState.bsearchFirst pred fuel low high d < high ∧
        pred (ViewState.bsearchFirst pred fuel low high d) = true) := by
  intro fuel
  induction fuel with
  | zero =>
      intro low high d _
      exact Or.inl rfl
  | succ f ih =>
      intro low high d hfuel
      simp only [ViewState.bsearchFirst]
      by_cases hlh : low < high
      · rw [if_pos hlh]
        by_cases hp : pred ((low + high) / 2) = true
        · rw [if_pos hp]
          rcases ih low ((low + high) / 2) ((low + high) / 2) (by omega) with h | h
          · right
            rw [h]
            exact ⟨by omega, by omega, hp⟩
          · right
            exact ⟨h.1, by omega, h.2.2⟩
        · rw [if_neg hp]
          rcases ih ((low + high) / 2 + 1) high d (by omega) with h | h
          · exact Or.inl h
          · right
            exact ⟨by omega, h.2.1, h.2.2⟩
      · rw [if_neg hlh]
        exact Or.inl rfl

/-- On a predicate monotone below `n`, the first-visible loop returns an
index at or below every satisfying index in range. -/
theorem ViewState.bsearchFirst_le (pred : ℕ → Bool) (n : ℕ)
    (hmono : ∀ i j, i ≤ j → j < n → pred i = true → pred j = true) :
    ∀ (fuel low high d : ℕ), high - low ≤ fuel → high ≤ n →
      ∀ i, low ≤ i → i < high → pred i = true →
        ViewState.bsearchFirst pred fuel low high d ≤ i := by
  intro fuel
  induction fuel with
  | zero =>
      intro low high d hfuel _ i hli hih _
      omega
  | succ f ih =>
      intro low high d hfuel hn i hli hih hpi
      have hlh : low < high := by omega
      simp only [ViewState.bsearchFirst]
      rw [if_pos hlh]
      by_cases hp : pred ((low + high) / 2) = true
      · rw [if_pos hp]
        by_cases him : i < (low + high) / 2
        · exact ih low ((low + high) / 2) ((low + high) / 2) (by omega) (by omega)
            i hli him hpi
        · rcases ViewState.bsearchFirst_mem pred f low ((low + high) / 2)
            ((low + high) / 2) (by omega) with h | h
          · omega
          · omega
      · rw [if_neg hp]
        have him : (low + high) / 2 + 1 ≤ i := by
          by_contra hcon
          exact hp (hmono i ((low + high) / 2) (by omega) (by omega) hpi)
        exact ih ((low + high) / 2 + 1) high d (by omega) hn i him hih hpi

/-- Whatever `find_last_visible`'s loop returns is the default or an index
in `[low, high)` satisfying the predicate. -/
theorem ViewState.bsearchLast_mem (pred : ℕ → Bool) :
    ∀ (fuel low high d : ℕ), high - low ≤ fuel →
      ViewState.bsearchLast pred fuel low high d = d ∨
      (low ≤ ViewState.bsearchLast pred fuel low high d ∧
        ViewState.bsearchLast pred fuel low high d < high ∧
        pred (ViewState.bsearchLast pred fuel low high d) = true) := by
  intro fuel
  induction fuel with
  | zero =>
      intro low high d _
      exact Or.inl rfl
  | succ f ih =>
      intro low high d hfuel
      simp only [ViewState.bsearchLast]
      by_cases hlh : low < high
      · rw [if_pos hlh]
        by_cases hp : pred ((low + high) / 2) = true
        · rw [if_pos hp]
          rcases ih ((low + high) / 2 + 1) high ((low + high) / 2) (by omega) with h | h
          · right
            rw [h]
            exact ⟨by omega, by omega, hp⟩
          · right
            exact ⟨by omega, h.2.1, h.2.2⟩
        · rw [if_neg hp]
          rcases ih low ((low + high) / 2) d (by omega) with h | h
          · exact Or.inl h
          · right
            exact ⟨h.1, by omega, h.2.2⟩
      · rw [if_neg hlh]
        exact Or.inl rfl

/-- On a predicate antitone below `n`, the last-visible loop returns an
index at or above every satisfying index in range. -/
theorem ViewState.bsearchLast_ge (pred : ℕ → Bool) (n : ℕ)
    (hanti : ∀ i j, i ≤ j → j < n → pred j = true → pred i = true) :
    ∀ (fuel low high d : ℕ), high - low ≤ fuel → high ≤ n →
      ∀ i, low ≤ i → i < high → pred i = true →
        i ≤ ViewState.bsearchLast pred fuel low high d := by
  intro fuel
  induction fuel with
  | zero =>
      intro low high d hfuel _ i hli hih _
      omega
  | succ f ih =>
      intro low high d hfuel hn i hli hih hpi
      have hlh : low < high := by omega
      simp only [ViewState.bsearchLast]
      rw [if_pos hlh]
      by_cases hp : pred ((low + high) / 2) = true
      · rw [if_pos hp]
        by_cases him : (low + high) / 2 + 1 ≤ i
        · exact ih ((low + high) / 2 + 1) high ((low + high) / 2) (by omega) hn
            i him hih hpi
        · rcases ViewState.bsearchLast_mem pred f ((low + high) / 2 + 1) high
            ((low + high) / 2) (by omega) with h | h
          · omega
          · omega
      · rw [if_neg hp]
        have him : i < (low + high) / 2 := by
          by_contra hcon
          exact hp (hanti ((low + high) / 2) i (by omega) (by omega) hpi)
        exact ih low ((low + high) / 2) d (by omega) (by omega) i hli him hpi

/-- The first-search predicate, in edge form, on an in-range index. -/
theorem ViewState.firstVisiblePred_eq (pages : List Page) (o : Orientation) (r : Rect)
    (i : ℕ) (hi : i < pages.length) :
    ViewState.firstVisiblePred pages o r i =
      decide (trailingEdge o (pages.getD i ViewState.defaultPage).bounds >
        leadingEdge o r) := by
  unfold ViewState.firstVisiblePred
  rw [List.getD_eq_getElem pages _ hi]
  rw [show pages.get? i = some pages[i] by
    rw [List.get?_eq_getElem?]
    exact List.getElem?_eq_getElem hi]
  cases o <;> rfl

/-- The last-search predicate, in edge form, on an in-range index. -/
theorem ViewState.lastVisiblePred_eq (pages : List Page) (o : Orientation) (r : Rect)
    (i : ℕ) (hi : i < pages.length) :
    ViewState.lastVisiblePred pages o r i =
      decide (leadingEdge o (pages.getD i ViewState.defaultPage).bounds <
        trailingEdge o r) := by
  unfold ViewState.lastVisiblePred
  rw [List.getD_eq_getElem pages _ hi]
  rw [show pages.get? i = some pages[i] by
    rw [List.get?_eq_getElem?]
    exact List.getElem?_eq_getElem hi]
  cases o <;> rfl

/-- The axis-intersection test is the conjunction of the two search
predicates. -/
theorem pageIntersects_eq_and (pages : List Page) (o : Orientation) (r : Rect)
    (i : ℕ) :
    pageIntersectsVisible pages o r i =
      (ViewState.firstVisiblePred pages o r i &&
        ViewState.lastVisiblePred pages o r i) := by
  unfold pageIntersectsVisible ViewState.firstVisiblePred ViewState.lastVisiblePred
  cases hg : pages.get? i
  · rfl
  · cases o <;> simp [leadingEdge, trailingEdge]

/-- A filtered `range` whose predicate characterizes an interval is the
interval. -/
theorem filter_range_eq_interval (p : ℕ → Bool) :
    ∀ (n a b : ℕ), a ≤ b → b ≤ n →
      (∀ i, i < n → (p i = true ↔ (a ≤ i ∧ i < b))) →
      (List.range n).filter p = List.range' a (b - a) := by
  intro n
  induction n with
  | zero =>
      intro a b hab hbn _
      have hb : b = 0 := by omega
      have ha : a = 0 := by omega
      subst hb
      subst ha
      rfl
  | succ m ih =>
      intro a b hab hbn hiff
      rw [List.range_succ, List.filter_append]
      by_cases hbm : b ≤ m
      · have hpm : p m = false := by
          cases hpm : p m
          · rfl
          · obtain ⟨_, h2⟩ := (hiff m (by omega)).mp hpm
            omega
        rw [ih a b hab hbm (fun i hi => hiff i (by omega))]
        simp [List.filter_cons, hpm]
      · have hbeq : b = m + 1 := by omega
        subst hbeq
        by_cases ham : a ≤ m
        · have hm : p m = true := (hiff m (by omega)).mpr ⟨ham, by omega⟩
          have hfm : List.filter p [m] = [m] := by simp [List.filter_cons, hm]
          have hiff2 : ∀ i, i < m → (p i = true ↔ (a ≤ i ∧ i < m)) := by
            intro i hi
            rw [hiff i (by omega)]
            constructor
            · intro h
              exact ⟨h.1, by omega⟩
            · intro h
              exact ⟨h.1, by omega⟩
          rw [hfm, ih a m ham (by omega) hiff2]
          rw [show m + 1 - a = (m - a) + 1 by omega, List.range'_concat]
          have hma : a + 1 * (m - a) = m := by omega
          rw [hma]
        · have ham' : a = m + 1 := by omega
          have hnone : ∀ i, i < m + 1 → p i = false := by
            intro i hi
            cases hpi : p i
            · rfl
            · obtain ⟨h1, _⟩ := (hiff i hi).mp hpi
              omega
          have h1 : List.filter p (List.range m) = [] :=
            List.filter_eq_nil_iff.mpr fun i hi => by
              rw [hnone i (by have := List.mem_range.mp hi; omega)]
              simp
          have h2 : List.filter p [m] = [] := by
            simp [List.filter_cons, hnone m (by omega)]
          rw [h1, h2, ham']
          simp

/-- The range the two binary searches produce equals the brute-force linear
scan, on monotone bounds, whenever at least one page intersects the
rectangle. -/
theorem visibleRange_eq_brute (pages : List Page) (o : Orientation) (r : Rect)
    (hmono : boundsMonotone pages o)
    (hex : ∃ j, j < pages.length ∧ pageIntersectsVisible pages o r j = true) :
    (if ViewState.find_first_visible pages o r ≤ ViewState.find_last_visible pages o r ∧
        ViewState.find_first_visible pages o r < pages.length then
      List.range' (ViewState.find_first_visible pages o r)
        (min (ViewState.find_last_visible pages o r) (pages.length - 1) + 1 -
          ViewState.find_first_visible pages o r)
    else []) = bruteVisiblePages pages o r := by
  obtain ⟨j, hj, hint⟩ := hex
  have hint' := hint
  rw [pageIntersects_eq_and] at hint'
  obtain ⟨hj1, hj2⟩ := (Bool.and_eq_true _ _).mp hint'
  have hmono1 : ∀ i k, i ≤ k → k < pages.length →
      ViewState.firstVisiblePred pages o r i = true →
      ViewState.firstVisiblePred pages o r k = true := by
    intro i k hik hk hpi
    rw [ViewState.firstVisiblePred_eq pages o r k hk]
    rw [ViewState.firstVisiblePred_eq pages o r i (by omega)] at hpi
    have hpi' := of_decide_eq_true hpi
    apply decide_eq_true
    by_cases hik' : i = k
    · subst hik'
      exact hpi'
    · exact lt_trans hpi' (hmono i k (by omega) hk).2
  have hanti2 : ∀ i k, i ≤ k → k < pages.length →
      ViewState.lastVisiblePred pages o r k = true →
      ViewState.lastVisiblePred pages o r i = true := by
    intro i k hik hk hpk
    rw [ViewState.lastVisiblePred_eq pages o r k hk] at hpk
    rw [ViewState.lastVisiblePred_eq pages o r i (by omega)]
    have hpk' := of_decide_eq_true hpk
    apply decide_eq_true
    by_cases hik' : i = k
    · subst hik'
      exact hpk'
    · exact lt_trans (hmono i k (by omega) hk).1 hpk'
  have hfirst_le : ViewState.find_first_visible pages o r ≤ j := by
    unfold ViewState.find_first_visible
    exact ViewState.bsearchFirst_le (ViewState.firstVisiblePred pages o r)
      pages.length hmono1 (pages.length + 1) 0 pages.length pages.length
      (by omega) (le_refl _) j (by omega) hj hj1
  have hlast_ge : j ≤ ViewState.find_last_visible pages o r := by
    unfold ViewState.find_last_visible
    exact ViewState.bsearchLast_ge (ViewState.lastVisiblePred pages o r)
      pages.length hanti2 (pages.length + 1) 0 pages.length 0
      (by omega) (le_refl _) j (by omega) hj hj2
  have hfirstn : ViewState.find_first_visible pages o r < pages.length ∧
      ViewState.firstVisiblePred pages o r
        (ViewState.find_first_visible pages o r) = true := by
    rcases ViewState.bsearchFirst_mem (ViewState.firstVisiblePred pages o r)
      (pages.length + 1) 0 pages.length pages.length (by omega) with h | h
    · exfalso
      unfold ViewState.find_first_visible at hfirst_le
      omega
    · exact ⟨h.2.1, h.2.2⟩
  have hlastn : ViewState.find_last_visible pages o r < pages.length ∧
      ViewState.lastVisiblePred pages o r
        (ViewState.find_last_visible pages o r) = true := by
    rcases ViewState.bsearchLast_mem (ViewState.lastVisiblePred pages o r)
      (pages.length + 1) 0 pages.length 0 (by omega) with h | h
    · constructor
      · show ViewState.find_last_visible pages o r < pages.length
        unfold ViewState.find_last_visible
        omega
      · have hj0 : j = 0 := by
          unfold ViewState.find_last_visible at hlast_ge
          omega
        show ViewState.lastVisiblePred pages o r
          (ViewState.find_last_visible pages o r) = true
        unfold ViewState.find_last_visible
        rw [h, ← hj0]
        exact hj2
    · exact ⟨h.2.1, h.2.2⟩
  have hchar : ∀ i, i < pages.length →
      (pageIntersectsVisible pages o r i = true ↔
        (ViewState.find_first_visible pages o r ≤ i ∧
          i < ViewState.find_last_visible pages o r + 1)) := by
    intro i hi
    rw [pageIntersects_eq_and, Bool.and_eq_true]
    constructor
    · intro ⟨h1, h2⟩
      constructor
      · unfold ViewState.find_first_visible
        exact ViewState.bsearchFirst_le (ViewState.firstVisiblePred pages o r)
          pages.length hmono1 (pages.length + 1) 0 pages.length pages.length
          (by omega) (le_refl _) i (by omega) hi h1
      · have hle : i ≤ ViewState.find_last_visible pages o r := by
          unfold ViewState.find_last_visible
          exact ViewState.bsearchLast_ge (ViewState.lastVisiblePred pages o r)
            pages.length hanti2 (pages.length + 1) 0 pages.length 0
            (by omega) (le_refl _) i (by omega) hi h2
        omega
    · intro ⟨h1, h2⟩
      exact ⟨hmono1 (ViewState.find_first_visible pages o r) i h1 hi hfirstn.2,
        hanti2 i (ViewState.find_last_visible pages o r) (by omega) hlastn.1 hlastn.2⟩
  rw [if_pos ⟨le_trans hfirst_le hlast_ge, by omega⟩]
  have hmin : min (ViewState.find_last_visible pages o r) (pages.length - 1) =
      ViewState.find_last_visible pages o r := by
    have := hlastn.1
    omega
  rw [hmin]
  unfold bruteVisiblePages
  have := filter_range_eq_interval (pageIntersectsVisible pages o r) pages.length
    (ViewState.find_first_visible pages o r)
    (ViewState.find_last_visible pages o r + 1)
    (by omega) (by omega) hchar
  rw [this]

/-! ## C1 — visible range vs. brute-force scan -/

/-- **C1 counterexample.**  A single page occupying `[5, 10]` on the scroll
axis with the expanded visible interval `[0, 3]` (strictly before the
page): `find_last_visible` finds no page whose leading edge precedes the
rectangle's trailing edge and falls back to its initial `result = 0`, so
`update_visible_pages` reports page 0 visible although the brute-force scan
finds nothing. -/
theorem C1_counterexample :
    boundsMonotone spuriousState.pages spuriousState.orientation ∧
    (spuriousState.update_visible_pages 0).1.visiblePages = [0] ∧
    bruteVisiblePages spuriousState.pages spuriousState.orientation
      (ViewState.computeVisibleRect spuriousState) = [] := by
  refine ⟨?_, by decide, by decide⟩
  intro i ji hij hj
  have hlen : spuriousState.pages.length = 1 := rfl
  exact absurd hij (by omega)

/-- **C1** (amended): on strictly monotonic bounds, whenever at least one
page intersects the expanded visible rectangle, the contiguous range
`[first, last]` produced by the two binary searches of
`update_visible_pages` contains exactly the pages whose bounds intersect
the rectangle along the scroll axis: the visited index list equals the
brute-force linear scan.  (When no page intersects, the computed range can
spuriously contain page 0 — see the counterexample.) -/
theorem C1_amended (s : ViewState) (now : ℕ)
    (hmono : boundsMonotone s.pages s.orientation)
    (hex : ∃ j, j < s.pages.length ∧
      pageIntersectsVisible s.pages s.orientation
        (ViewState.computeVisibleRect s) j = true) :
    (s.update_visible_pages now).1.visiblePages =
      bruteVisiblePages s.pages s.orientation (ViewState.computeVisibleRect s) := by
  have hvp : (s.update_visible_pages now).1.visiblePages =
      (if ViewState.find_first_visible s.pages s.orientation
            (ViewState.computeVisibleRect s) ≤
          ViewState.find_last_visible s.pages s.orientation
            (ViewState.computeVisibleRect s) ∧
          ViewState.find_first_visible s.pages s.orientation
            (ViewState.computeVisibleRect s) < s.pages.length then
        List.range'
          (ViewState.find_first_visible s.pages s.orientation
            (ViewState.computeVisibleRect s))
          (min (ViewState.find_last_visible s.pages s.orientation
              (ViewState.computeVisibleRect s)) (s.pages.length - 1) + 1 -
            ViewState.find_first_visible s.pages s.orientation
              (ViewState.computeVisibleRect s))
      else []) := by
    simp only [ViewState.update_visible_pages]
    exact (ViewState.visitPages_spec s.pages s.crop _ now _ s.cache).1
  rw [hvp]
  exact visibleRange_eq_brute s.pages s.orientation (ViewState.computeVisibleRect s)
    hmono hex

/-- **C1 witness**: one page at `[5, 10]` against the expanded interval
`[0, 12]`: the binary-search range and the brute-force scan agree on
`[0]`. -/
theorem C1_witness :
    (visibleState.update_visible_pages 0).1.visiblePages = [0] := by
  have h := C1_amended visibleState 0
    (by
      intro i ji hij hj
      have hlen : visibleState.pages.length = 1 := rfl
      exact absurd hij (by omega))
    ⟨0, by decide, by decide⟩
  rw [h]
  decide

/-- **C4 witness**: a queued request whose callback answers `false` is
skipped: the queue advances and nothing is emitted, executed, or errored. -/
theorem C4_witness :
    (processOne (some exDecoder)
      { queue := [exInvisiblePage], currentVisible := [] }).1 =
      { queue := [], currentVisible := [] } ∧
    (processOne (some exDecoder)
      { queue := [exInvisiblePage], currentVisible := [] }).2 = ([], [], []) := by
  have h := C4_invisible_skipped (some exDecoder)
    { queue := [exInvisiblePage], currentVisible := [] } exInvisiblePage []
    (fun _ => false) rfl rfl rfl
  exact ⟨h.1, h.2.1⟩

end Theorems

end RReader
